import Mathlib

/-!
# Metadata repository of octavius

A shallow embedding of `internal/controller/server/repository/metadata/metadata.go`:
the four repository operations `Save`, `GetAll`, `GetAvailableJobList` and `GetValue`,
written over an explicit world state that is passed through every call of the etcd client.

Go strings are embedded as `String`; a byte slice obtained by `[]byte(s)` or turned back by
`string(b)` is the same `String`.  A Go result pair `(value, error)` is a Lean pair whose
components are `Option`s (`none` is Go's `nil`).
-/

set_option autoImplicit false

namespace Octavius

/-! ## Errors -/

/-- The status codes of `google.golang.org/grpc/codes`, in their numeric order. -/
inductive Code where
  | OK
  | Canceled
  | Unknown
  | InvalidArgument
  | DeadlineExceeded
  | NotFound
  | AlreadyExists
  | PermissionDenied
  | ResourceExhausted
  | FailedPrecondition
  | Aborted
  | OutOfRange
  | Unimplemented
  | Internal
  | Unavailable
  | DataLoss
  | Unauthenticated
  deriving DecidableEq, Repr

/-- An error value produced below the repository (etcd client, protobuf codec): `addr` is the
identity of the value (two interface values holding pointers are `==` exactly when they hold
the same address) and `msg` is what its `Error()` method returns. -/
structure GoError where
  addr : Nat
  msg : String
  deriving DecidableEq, Repr

/-- The values of Go's `error` interface that a repository operation can hand to its caller:
a gRPC status built by `status.Error`, or an error of the layer below passed on as it is. -/
inductive RepoError where
  | status (code : Code) (msg : String)
  | underlying (e : GoError)
  deriving DecidableEq, Repr

/-- `status.Error(c, msg)`: a status error with the code and the message, and `nil` when the
code is `OK`. -/
def statusError (c : Code) (msg : String) : Option RepoError :=
  if c = Code.OK then none else some (RepoError.status c msg)

/-- The kind attached to a returned error: the code of a status error; an error that is not a
status has none. -/
def RepoError.kind : RepoError → Option Code
  | RepoError.status c _ => some c
  | RepoError.underlying _ => none

/-! ## World state, etcd client, codec, constants -/

/-- The state an operation runs in: `db` is whatever stands behind the etcd client and `next`
is the first address not yet given to any error value. -/
structure World (σ : Type) where
  db : σ
  next : Nat

/-- `errors.New(text)`: a newly allocated error value; each call returns a distinct value even
when the text is the same. -/
def errorsNew {σ : Type} (w : World σ) (text : String) : GoError × World σ :=
  ({ addr := w.next, msg := text }, { w with next := w.next + 1 })

/-- Interface equality `a == b` of two `error` values: both `nil`, or both the same value. -/
def errorEq (a b : Option GoError) : Bool :=
  match a, b with
  | none, none => true
  | some x, some y => x.addr == y.addr
  | _, _ => false

/-- The interface `etcd.Client` (package `octavius/internal/pkg/db/etcd`), of which the
repository uses four methods.  Every method takes the world and returns the world it leaves. -/
structure Client (σ : Type) where
  GetValue : World σ → String → (String × Option GoError) × World σ
  PutValue : World σ → String → String → Option GoError × World σ
  GetAllValues : World σ → String → (List String × Option GoError) × World σ
  GetAllKeyAndValues : World σ → String → (List String × List String × Option GoError) × World σ

/-- The protobuf codec of `protofiles.Metadata` as the repository uses it: `proto.Marshal`,
`proto.Unmarshal` into a new `&protofiles.Metadata{}`, and that empty message itself. -/
structure Codec (M : Type) where
  Marshal : M → Except GoError String
  Unmarshal : String → Except GoError M
  empty : M

/-- The string constants of package `octavius/internal/pkg/constant` that the repository
reads. -/
structure Constants where
  MetadataPrefix : String
  NoValueFound : String
  Etcd : String
  KeyAlreadyPresent : String

/-- The message `protofiles.MetadataName`. -/
structure MetadataName where
  Name : String
  deriving DecidableEq, Repr

/-- The message `protofiles.MetadataArray`. -/
structure MetadataArray (M : Type) where
  Values : List M
  deriving DecidableEq, Repr

/-- The message `protofiles.JobList`. -/
structure JobList where
  Jobs : List String
  deriving DecidableEq, Repr

/-! ## The repository -/

section Repository

variable {σ M : Type}

/-- `metadataRepository.Save`: marshal the record, read `MetadataPrefix + key`, refuse when the
read value is not empty, refuse when the read error has another message than `NoValueFound`,
otherwise put the marshalled bytes under the key and return the name.  (The `log.Info` call
has no effect on the result.) -/
def Save (K : Constants) (c : Client σ) (p : Codec M) (w : World σ) (key : String)
    (metadata : M) : (Option MetadataName × Option RepoError) × World σ :=
  match p.Marshal metadata with
  | Except.error e => ((none, statusError Code.Internal e.msg), w)
  | Except.ok val =>
    let dbKey := K.MetadataPrefix ++ key
    let r := c.GetValue w dbKey
    if r.1.1 ≠ "" then
      ((none, statusError Code.AlreadyExists (K.Etcd ++ K.KeyAlreadyPresent)), r.2)
    else
      match r.1.2 with
      | some e =>
        if e.msg ≠ K.NoValueFound then
          ((none, statusError Code.Internal e.msg), r.2)
        else
          match c.PutValue r.2 dbKey val with
          | (some e2, w2) => ((none, statusError Code.Internal e2.msg), w2)
          | (none, w2) => ((some { Name := key }, none), w2)
      | none =>
        match c.PutValue r.2 dbKey val with
        | (some e2, w2) => ((none, statusError Code.Internal e2.msg), w2)
        | (none, w2) => ((some { Name := key }, none), w2)

/-- The loop of `GetAll`: unmarshal the scanned values one after the other and append each
record to `resArr`; the first value that does not unmarshal ends the loop with its error. -/
def unmarshalLoop (p : Codec M) : List String → List M → Except GoError (List M)
  | [], resArr => Except.ok resArr
  | val :: rest, resArr =>
    match p.Unmarshal val with
    | Except.error e => Except.error e
    | Except.ok metadata => unmarshalLoop p rest (resArr ++ [metadata])

/-- `metadataRepository.GetAll`. -/
def GetAll (K : Constants) (c : Client σ) (p : Codec M) (w : World σ) :
    (Option (MetadataArray M) × Option RepoError) × World σ :=
  let r := c.GetAllValues w K.MetadataPrefix
  match r.1.2 with
  | some e => ((some { Values := [] }, statusError Code.Internal e.msg), r.2)
  | none =>
    match unmarshalLoop p r.1.1 [] with
    | Except.error e => ((none, statusError Code.Internal e.msg), r.2)
    | Except.ok resArr => ((some { Values := resArr }, none), r.2)

/-- `strings.Split` on characters with a one-character separator: the pieces between the
occurrences of `sep`, one more than there are occurrences. -/
def splitChars (sep : Char) : List Char → List (List Char)
  | [] => [[]]
  | ch :: cs =>
    if ch = sep then [] :: splitChars sep cs
    else
      match splitChars sep cs with
      | [] => [[ch]]
      | seg :: segs => (ch :: seg) :: segs

/-- `strings.Split(s, "/")`.  The byte `/` occurs in UTF-8 text only as the character `/`, so
splitting characters and splitting bytes agree. -/
def Split (s : String) : List String :=
  (splitChars '/' s.data).map String.mk

/-- The loop of `GetAvailableJobList`: append `strings.Split(key, "/")[1]` for each key.
`none` stands for the run-time panic of an index out of range. -/
def jobListLoop : List String → List String → Option (List String)
  | [], jobList => some jobList
  | key :: rest, jobList =>
    match (Split key)[1]? with
    | none => none
    | some name => jobListLoop rest (jobList ++ [name])

/-- `metadataRepository.GetAvailableJobList`; `none` is a run-time panic. -/
def GetAvailableJobList (K : Constants) (c : Client σ) (w : World σ) :
    Option ((Option JobList × Option RepoError) × World σ) :=
  let r := c.GetAllKeyAndValues w K.MetadataPrefix
  match r.1.2.2 with
  | some e => some ((none, statusError Code.Internal e.msg), r.2)
  | none =>
    match jobListLoop r.1.1 [] with
    | none => none
    | some jobList => some ((some { Jobs := jobList }, none), r.2)

/-- `metadataRepository.GetValue`: read `MetadataPrefix + jobName`; an error that is `==` to a
new `errors.New(NoValueFound)` value is reported as `NotFound`, any other error as `Internal`;
without an error the read value is unmarshalled.  (A `nil` error is not `==` to the new value
and fails the second test `err != nil` too, so the first two tests are made on `some e`.) -/
def GetValue (K : Constants) (c : Client σ) (p : Codec M) (w : World σ) (jobName : String) :
    (Option M × Option RepoError) × World σ :=
  let dbKey := K.MetadataPrefix ++ jobName
  let r := c.GetValue w dbKey
  let n := errorsNew r.2 K.NoValueFound
  match r.1.2 with
  | some e =>
    if errorEq (some e) (some n.1) then
      ((some p.empty, statusError Code.NotFound e.msg), n.2)
    else
      ((some p.empty, statusError Code.Internal e.msg), n.2)
  | none =>
    match p.Unmarshal r.1.1 with
    | Except.error e => ((some p.empty, statusError Code.Internal e.msg), n.2)
    | Except.ok metadata => ((some metadata, none), n.2)

end Repository

/-! ## A store, a codec and constants to run the repository on -/

/-- Modelled from the spec: the implementation of `etcd.Client` is not among the sources.
The store is a finite map from keys to values, kept as a list of entries with distinct keys
in the order in which the keys were first written. -/
abbrev Store := List (String × String)

/-- The value stored under a key, if there is one. -/
def Store.get (m : Store) (k : String) : Option String :=
  match m with
  | [] => none
  | (k1, v1) :: rest => if k1 = k then some v1 else Store.get rest k

/-- A write sets the key: the value of an existing entry is replaced, a new entry goes to the
end. -/
def Store.put (m : Store) (k v : String) : Store :=
  match m with
  | [] => [(k, v)]
  | (k1, v1) :: rest => if k1 = k then (k, v) :: rest else (k1, v1) :: Store.put rest k v

/-- The entries whose key starts with the prefix, in store order. -/
def Store.scan (m : Store) (pfx : String) : Store :=
  m.filter (fun kv => pfx.data.isPrefixOf kv.1.data)

/-- Modelled from the spec: the implementation of `etcd.Client` is not among the sources.
Reading a present key returns its value and no error; reading an absent key returns the empty
value and a new error whose message is `NoValueFound`; a write sets the key; the two scans
return the values, and the keys and values, of the entries under the prefix, without error. -/
def modelClient (K : Constants) : Client Store where
  GetValue := fun w k =>
    match Store.get w.db k with
    | some v => ((v, none), w)
    | none => (("", some (errorsNew w K.NoValueFound).1), (errorsNew w K.NoValueFound).2)
  PutValue := fun w k v => (none, { w with db := Store.put w.db k v })
  GetAllValues := fun w pfx => (((Store.scan w.db pfx).map Prod.snd, none), w)
  GetAllKeyAndValues := fun w pfx =>
    (((Store.scan w.db pfx).map Prod.fst, (Store.scan w.db pfx).map Prod.snd, none), w)

/-- Modelled from the spec: package `constant` is not among the sources.  The spec gives the
namespace prefix `"metadata/"`; the three message texts stand for the texts of that package. -/
def sampleConstants : Constants where
  MetadataPrefix := "metadata/"
  NoValueFound := "no value found"
  Etcd := "etcd: "
  KeyAlreadyPresent := "key already present"

/-- Modelled from the spec: `protofiles.Metadata` is not among the sources.  Of the record
only its name field is kept. -/
structure Metadata where
  Name : String
  deriving DecidableEq, Repr

/-- Modelled from the spec: the protobuf encoding of `protofiles.Metadata` is not among the
sources.  As in protobuf, a field that has its default value takes no bytes, so the record
with the empty name is encoded in zero bytes; a name that is not empty is written after the
mark `N`.  Bytes that are neither empty nor a mark followed by a name do not decode. -/
def sampleCodec : Codec Metadata where
  Marshal := fun m => Except.ok (if m.Name = "" then "" else "N" ++ m.Name)
  Unmarshal := fun s =>
    match s.data with
    | [] => Except.ok { Name := "" }
    | 'N' :: ch :: cs => Except.ok { Name := String.mk (ch :: cs) }
    | _ => Except.error { addr := 0, msg := "proto: cannot parse invalid wire-format data" }
  empty := { Name := "" }

/-- The world in which nothing is stored and no error value has been made, apart from the one
the codec holds at address 0. -/
def emptyWorld : World Store :=
  { db := [], next := 1 }

/-- The world after the job `DemoJob` was saved with the record of that name. -/
def demoWorld : World Store :=
  { db := [("metadata/DemoJob", "NDemoJob")], next := 2 }

/-- Modelled from the spec: the tests of the repository run it on a mock of `etcd.Client`
that is not among the sources.  A client that answers every call with a reply fixed in
advance and leaves the world as it is. -/
def cannedClient (read : String × Option GoError) (write : Option GoError)
    (values : List String × Option GoError)
    (keysAndValues : List String × List String × Option GoError) : Client Unit where
  GetValue := fun w _ => (read, w)
  PutValue := fun w _ _ => (write, w)
  GetAllValues := fun w _ => (values, w)
  GetAllKeyAndValues := fun w _ => (keysAndValues, w)

/-- Calls of `Save` made one after the other by a caller, each in the world the call before
it left; the results are kept in the order of the calls. -/
def saveEach {σ M : Type} (K : Constants) (c : Client σ) (p : Codec M) :
    World σ → List (String × M) → List (Option MetadataName × Option RepoError) × World σ
  | w, [] => ([], w)
  | w, job :: rest =>
    ((Save K c p w job.1 job.2).1 :: (saveEach K c p (Save K c p w job.1 job.2).2 rest).1,
      (saveEach K c p (Save K c p w job.1 job.2).2 rest).2)

/-- The three kinds of the error taxonomy. -/
def taxonomy : List Code :=
  [Code.AlreadyExists, Code.NotFound, Code.Internal]

/-- The first step of `Save`, from the marshalling to the two tests on what the read of
`MetadataPrefix + key` returned: either the error with which `Save` returns before it writes,
or the marshalled bytes that it goes on to write. -/
def SaveRead {σ M : Type} (K : Constants) (c : Client σ) (p : Codec M) (w : World σ)
    (key : String) (metadata : M) : Except (Option RepoError) String × World σ :=
  match p.Marshal metadata with
  | Except.error e => (Except.error (statusError Code.Internal e.msg), w)
  | Except.ok val =>
    let dbKey := K.MetadataPrefix ++ key
    let r := c.GetValue w dbKey
    if r.1.1 ≠ "" then
      (Except.error (statusError Code.AlreadyExists (K.Etcd ++ K.KeyAlreadyPresent)), r.2)
    else
      match r.1.2 with
      | some e =>
        if e.msg ≠ K.NoValueFound then
          (Except.error (statusError Code.Internal e.msg), r.2)
        else
          (Except.ok val, r.2)
      | none => (Except.ok val, r.2)

/-- The second step of `Save`: the write of the marshalled bytes under `MetadataPrefix + key`
and the result made from its outcome. -/
def SaveWrite {σ : Type} (K : Constants) (c : Client σ) (w : World σ) (key : String)
    (val : String) : (Option MetadataName × Option RepoError) × World σ :=
  match c.PutValue w (K.MetadataPrefix ++ key) val with
  | (some e2, w2) => ((none, statusError Code.Internal e2.msg), w2)
  | (none, w2) => ((some { Name := key }, none), w2)

/-- A client with a record of its writes: it answers as the client `c` does on the first
component of the state, and every `PutValue` adds its key and value at the end of the second
component. -/
def recordingClient {σ : Type} (c : Client σ) : Client (σ × List (String × String)) where
  GetValue := fun w k =>
    ((c.GetValue { db := w.db.1, next := w.next } k).1,
      { db := ((c.GetValue { db := w.db.1, next := w.next } k).2.db, w.db.2),
        next := (c.GetValue { db := w.db.1, next := w.next } k).2.next })
  PutValue := fun w k v =>
    ((c.PutValue { db := w.db.1, next := w.next } k v).1,
      { db := ((c.PutValue { db := w.db.1, next := w.next } k v).2.db, w.db.2 ++ [(k, v)]),
        next := (c.PutValue { db := w.db.1, next := w.next } k v).2.next })
  GetAllValues := fun w pfx =>
    ((c.GetAllValues { db := w.db.1, next := w.next } pfx).1,
      { db := ((c.GetAllValues { db := w.db.1, next := w.next } pfx).2.db, w.db.2),
        next := (c.GetAllValues { db := w.db.1, next := w.next } pfx).2.next })
  GetAllKeyAndValues := fun w pfx =>
    ((c.GetAllKeyAndValues { db := w.db.1, next := w.next } pfx).1,
      { db := ((c.GetAllKeyAndValues { db := w.db.1, next := w.next } pfx).2.db, w.db.2),
        next := (c.GetAllKeyAndValues { db := w.db.1, next := w.next } pfx).2.next })

/-- The world of a recording client over the world `w` of the client it records, with the
writes recorded so far. -/
def recordingWorld {σ : Type} (w : World σ) (writes : List (String × String)) :
    World (σ × List (String × String)) :=
  { db := (w.db, writes), next := w.next }

/-- The world in which `DemoJob` is stored with the empty value. -/
def emptyValueWorld : World Store :=
  { db := [("metadata/DemoJob", "")], next := 2 }

/-! ## Lemmas -/

theorem statusError_AlreadyExists (msg : String) :
    statusError Code.AlreadyExists msg = some (RepoError.status Code.AlreadyExists msg) := rfl

theorem statusError_NotFound (msg : String) :
    statusError Code.NotFound msg = some (RepoError.status Code.NotFound msg) := rfl

theorem statusError_Internal (msg : String) :
    statusError Code.Internal msg = some (RepoError.status Code.Internal msg) := rfl

/-- What `Save` does once the record is marshalled and the read has reported an empty value
with nothing against a write: it puts the value and answers by the outcome of the put. -/
theorem Save_put {σ M : Type} (K : Constants) (c : Client σ) (p : Codec M) (w : World σ)
    (key : String) (metadata : M) (val : String)
    (hm : p.Marshal metadata = Except.ok val)
    (hv : (c.GetValue w (K.MetadataPrefix ++ key)).1.1 = "")
    (he : ∀ e, (c.GetValue w (K.MetadataPrefix ++ key)).1.2 = some e → e.msg = K.NoValueFound) :
    Save K c p w key metadata =
      match c.PutValue (c.GetValue w (K.MetadataPrefix ++ key)).2 (K.MetadataPrefix ++ key) val with
      | (some e2, w2) => ((none, some (RepoError.status Code.Internal e2.msg)), w2)
      | (none, w2) => ((some { Name := key }, none), w2) := by
  unfold Save
  simp only [hm, hv, ne_eq, not_true_eq_false, if_false, statusError_Internal]
  cases hr : (c.GetValue w (K.MetadataPrefix ++ key)).1.2 with
  | none => rfl
  | some e => simp [he e hr]

/-- `Save` refuses with `AlreadyExists`, in the world the read left, when the read value is not
empty. -/
theorem Save_of_value {σ M : Type} (K : Constants) (c : Client σ) (p : Codec M) (w : World σ)
    (key : String) (metadata : M) (val : String)
    (hm : p.Marshal metadata = Except.ok val)
    (hv : (c.GetValue w (K.MetadataPrefix ++ key)).1.1 ≠ "") :
    Save K c p w key metadata =
      ((none, some (RepoError.status Code.AlreadyExists (K.Etcd ++ K.KeyAlreadyPresent))),
        (c.GetValue w (K.MetadataPrefix ++ key)).2) := by
  unfold Save
  simp only [hm, hv, ne_eq, not_false_eq_true, if_true, statusError_AlreadyExists]

/-- `Save` refuses with `Internal`, in the world the read left, when the read value is empty
and the read error has another message than `NoValueFound`. -/
theorem Save_of_read_error {σ M : Type} (K : Constants) (c : Client σ) (p : Codec M)
    (w : World σ) (key : String) (metadata : M) (val : String) (e : GoError)
    (hm : p.Marshal metadata = Except.ok val)
    (hv : (c.GetValue w (K.MetadataPrefix ++ key)).1.1 = "")
    (hr : (c.GetValue w (K.MetadataPrefix ++ key)).1.2 = some e)
    (he : e.msg ≠ K.NoValueFound) :
    Save K c p w key metadata =
      ((none, some (RepoError.status Code.Internal e.msg)),
        (c.GetValue w (K.MetadataPrefix ++ key)).2) := by
  unfold Save
  simp only [hm, hv, hr, he, ne_eq, not_true_eq_false, not_false_eq_true, if_false, if_true,
    statusError_Internal]

/-- The loop of `GetAll` on values that all unmarshal: the records are appended in the order
of the values. -/
theorem unmarshalLoop_ok {M : Type} (p : Codec M) (vals : List String) (resArr : List M)
    (h : ∀ v ∈ vals, ∃ m, p.Unmarshal v = Except.ok m) :
    ∃ ms, unmarshalLoop p vals resArr = Except.ok (resArr ++ ms) ∧
      List.Forall₂ (fun v m => p.Unmarshal v = Except.ok m) vals ms := by
  induction vals generalizing resArr with
  | nil => exact ⟨[], by simp [unmarshalLoop], List.Forall₂.nil⟩
  | cons v rest ih =>
    obtain ⟨m, hm⟩ := h v (List.mem_cons_self v rest)
    obtain ⟨ms, hms, hall⟩ := ih (resArr ++ [m]) (fun x hx => h x (List.mem_cons_of_mem v hx))
    refine ⟨m :: ms, ?_, List.Forall₂.cons hm hall⟩
    simp [unmarshalLoop, hm, hms]

/-- The loop of `GetAll` on values of which one does not unmarshal: the loop ends with the
error of a value of the list, whatever was appended before. -/
theorem unmarshalLoop_error {M : Type} (p : Codec M) (vals : List String) (resArr : List M)
    (h : ∃ v ∈ vals, ∀ m, p.Unmarshal v ≠ Except.ok m) :
    ∃ e, unmarshalLoop p vals resArr = Except.error e ∧
      ∃ v ∈ vals, p.Unmarshal v = Except.error e := by
  induction vals generalizing resArr with
  | nil => obtain ⟨v, hv, _⟩ := h; simp at hv
  | cons v rest ih =>
    cases hu : p.Unmarshal v with
    | error e =>
      exact ⟨e, by simp [unmarshalLoop, hu], v, List.mem_cons_self v rest, hu⟩
    | ok m =>
      have hrest : ∃ x ∈ rest, ∀ m, p.Unmarshal x ≠ Except.ok m := by
        obtain ⟨x, hx, hbad⟩ := h
        rcases List.mem_cons.mp hx with rfl | hx
        · exact absurd hu (hbad m)
        · exact ⟨x, hx, hbad⟩
      obtain ⟨e, he, x, hx, hxe⟩ := ih (resArr ++ [m]) hrest
      exact ⟨e, by simp [unmarshalLoop, hu, he], x, List.mem_cons_of_mem v hx, hxe⟩

/-- Positions of two lists related element by element hold related elements. -/
theorem forall₂_getElem? {α β : Type} (R : α → β → Prop) (xs : List α) (ys : List β)
    (h : List.Forall₂ R xs ys) (i : Nat) (x : α) (hx : xs[i]? = some x) :
    ∃ y, ys[i]? = some y ∧ R x y := by
  induction h generalizing i with
  | nil => simp at hx
  | cons hxy _ ih =>
    cases i with
    | zero => simp at hx; subst hx; exact ⟨_, by simp, hxy⟩
    | succ j => simpa using ih j (by simpa using hx)

/-- Every error `Save` returns is a status of the taxonomy. -/
theorem Save_error_kind {σ M : Type} (K : Constants) (c : Client σ) (p : Codec M) (w : World σ)
    (key : String) (metadata : M) (err : RepoError)
    (h : (Save K c p w key metadata).1.2 = some err) :
    ∃ code msg, err = RepoError.status code msg ∧ code ∈ taxonomy := by
  unfold Save at h
  cases hm : p.Marshal metadata with
  | error e =>
    simp only [hm, statusError_Internal, Option.some.injEq] at h
    exact ⟨Code.Internal, e.msg, h.symm, by simp [taxonomy]⟩
  | ok val =>
    simp only [hm] at h
    split at h
    · simp only [statusError_AlreadyExists, Option.some.injEq] at h
      exact ⟨Code.AlreadyExists, _, h.symm, by simp [taxonomy]⟩
    · split at h
      · split at h
        · simp only [statusError_Internal, Option.some.injEq] at h
          exact ⟨Code.Internal, _, h.symm, by simp [taxonomy]⟩
        · split at h
          · simp only [statusError_Internal, Option.some.injEq] at h
            exact ⟨Code.Internal, _, h.symm, by simp [taxonomy]⟩
          · simp at h
      · split at h
        · simp only [statusError_Internal, Option.some.injEq] at h
          exact ⟨Code.Internal, _, h.symm, by simp [taxonomy]⟩
        · simp at h

/-- Every error `GetValue` returns is a status of the taxonomy. -/
theorem GetValue_error_kind {σ M : Type} (K : Constants) (c : Client σ) (p : Codec M)
    (w : World σ) (jobName : String) (err : RepoError)
    (h : (GetValue K c p w jobName).1.2 = some err) :
    ∃ code msg, err = RepoError.status code msg ∧ code ∈ taxonomy := by
  unfold GetValue at h
  simp only at h
  split at h
  · split at h
    · simp only [statusError_NotFound, Option.some.injEq] at h
      exact ⟨Code.NotFound, _, h.symm, by simp [taxonomy]⟩
    · simp only [statusError_Internal, Option.some.injEq] at h
      exact ⟨Code.Internal, _, h.symm, by simp [taxonomy]⟩
  · split at h
    · simp only [statusError_Internal, Option.some.injEq] at h
      exact ⟨Code.Internal, _, h.symm, by simp [taxonomy]⟩
    · simp at h

/-- Every error `GetAll` returns is a status of the taxonomy. -/
theorem GetAll_error_kind {σ M : Type} (K : Constants) (c : Client σ) (p : Codec M)
    (w : World σ) (err : RepoError)
    (h : (GetAll K c p w).1.2 = some err) :
    ∃ code msg, err = RepoError.status code msg ∧ code ∈ taxonomy := by
  unfold GetAll at h
  simp only at h
  split at h
  · simp only [statusError_Internal, Option.some.injEq] at h
    exact ⟨Code.Internal, _, h.symm, by simp [taxonomy]⟩
  · split at h
    · simp only [statusError_Internal, Option.some.injEq] at h
      exact ⟨Code.Internal, _, h.symm, by simp [taxonomy]⟩
    · simp at h

/-- Every error `GetAvailableJobList` returns is a status of the taxonomy. -/
theorem GetAvailableJobList_error_kind {σ : Type} (K : Constants) (c : Client σ)
    (w : World σ) (res : (Option JobList × Option RepoError) × World σ) (err : RepoError)
    (hres : GetAvailableJobList K c w = some res) (h : res.1.2 = some err) :
    ∃ code msg, err = RepoError.status code msg ∧ code ∈ taxonomy := by
  unfold GetAvailableJobList at hres
  simp only at hres
  split at hres
  · simp only [statusError_Internal, Option.some.injEq] at hres
    subst hres
    simp only [Option.some.injEq] at h
    exact ⟨Code.Internal, _, h.symm, by simp [taxonomy]⟩
  · split at hres
    · simp at hres
    · simp only [Option.some.injEq] at hres
      subst hres
      simp at h

/-- `GetValue` on a read that returns an error made before the read returned: the error is
not the new value `GetValue` compares it with, and the outcome is `Internal`. -/
theorem GetValue_of_read_error {σ M : Type} (K : Constants) (c : Client σ) (p : Codec M)
    (w : World σ) (jobName : String) (e : GoError)
    (hr : (c.GetValue w (K.MetadataPrefix ++ jobName)).1.2 = some e)
    (ha : e.addr < (c.GetValue w (K.MetadataPrefix ++ jobName)).2.next) :
    (GetValue K c p w jobName).1 = (some p.empty, some (RepoError.status Code.Internal e.msg)) := by
  unfold GetValue
  have hne : e.addr ≠ (c.GetValue w (K.MetadataPrefix ++ jobName)).2.next := Nat.ne_of_lt ha
  simp [hr, errorEq, errorsNew, hne, statusError_Internal]

/-- After a write the key holds the written value. -/
theorem Store.get_put_same (m : Store) (k v : String) :
    Store.get (Store.put m k v) k = some v := by
  induction m with
  | nil => simp [Store.put, Store.get]
  | cons kv rest ih =>
    obtain ⟨k1, v1⟩ := kv
    by_cases h : k1 = k
    · simp [Store.put, Store.get, h]
    · simp [Store.put, Store.get, h, ih]

/-- A write leaves the other keys as they are. -/
theorem Store.get_put_other (m : Store) (k v k2 : String) (h2 : k ≠ k2) :
    Store.get (Store.put m k v) k2 = Store.get m k2 := by
  induction m with
  | nil => simp [Store.put, Store.get, h2]
  | cons kv rest ih =>
    obtain ⟨k1, v1⟩ := kv
    by_cases h : k1 = k
    · subst h
      simp [Store.put, Store.get, h2]
    · simp [Store.put, Store.get, h, ih]

/-- A write of a key that is not stored adds the entry at the end. -/
theorem Store.put_of_get_none (m : Store) (k v : String) (h : Store.get m k = none) :
    Store.put m k v = m ++ [(k, v)] := by
  induction m with
  | nil => simp [Store.put]
  | cons kv rest ih =>
    obtain ⟨k1, v1⟩ := kv
    by_cases h1 : k1 = k
    · simp [Store.get, h1] at h
    · simp only [Store.get, h1, if_false] at h
      simp [Store.put, h1, ih h]

/-- The read of the model client on a key that is not stored. -/
theorem modelClient_GetValue_none (K : Constants) (w : World Store) (k : String)
    (h : Store.get w.db k = none) :
    (modelClient K).GetValue w k =
      (("", some { addr := w.next, msg := K.NoValueFound }), { w with next := w.next + 1 }) := by
  simp [modelClient, h, errorsNew]

/-- The read of the model client on a key that is stored. -/
theorem modelClient_GetValue_some (K : Constants) (w : World Store) (k v : String)
    (h : Store.get w.db k = some v) :
    (modelClient K).GetValue w k = ((v, none), w) := by
  simp [modelClient, h]

/-- `Save` on the model store for a name that is not stored: it succeeds and the store holds
the marshalled record under the namespaced key. -/
theorem Save_model_absent {M : Type} (K : Constants) (p : Codec M) (w : World Store)
    (key : String) (metadata : M) (val : String)
    (hm : p.Marshal metadata = Except.ok val)
    (habs : Store.get w.db (K.MetadataPrefix ++ key) = none) :
    Save K (modelClient K) p w key metadata =
      ((some { Name := key }, none),
        { db := Store.put w.db (K.MetadataPrefix ++ key) val, next := w.next + 1 }) := by
  have hg := modelClient_GetValue_none K w (K.MetadataPrefix ++ key) habs
  rw [Save_put K (modelClient K) p w key metadata val hm (by rw [hg])
    (fun e he => by rw [hg] at he; cases he; rfl)]
  rw [hg]
  rfl

/-- `Save` on the model store for a name whose stored value is not empty: it fails with
`AlreadyExists` and leaves the world as it is. -/
theorem Save_model_present {M : Type} (K : Constants) (p : Codec M) (w : World Store)
    (key : String) (metadata : M) (val v : String)
    (hm : p.Marshal metadata = Except.ok val)
    (hpre : Store.get w.db (K.MetadataPrefix ++ key) = some v) (hv : v ≠ "") :
    Save K (modelClient K) p w key metadata =
      ((none, some (RepoError.status Code.AlreadyExists (K.Etcd ++ K.KeyAlreadyPresent))), w) := by
  have hg := modelClient_GetValue_some K w (K.MetadataPrefix ++ key) v hpre
  rw [Save_of_value K (modelClient K) p w key metadata val hm (by rw [hg]; exact hv), hg]

/-- `GetValue` on the model store for a name that is stored: the outcome of unmarshalling the
stored value. -/
theorem GetValue_model_present {M : Type} (K : Constants) (p : Codec M) (w : World Store)
    (jobName v : String) (m : M)
    (hpre : Store.get w.db (K.MetadataPrefix ++ jobName) = some v)
    (hu : p.Unmarshal v = Except.ok m) :
    (GetValue K (modelClient K) p w jobName).1 = (some m, none) := by
  have hg := modelClient_GetValue_some K w (K.MetadataPrefix ++ jobName) v hpre
  unfold GetValue
  simp [hg, hu]

/-- A text without the separator is one piece. -/
theorem splitChars_of_not_mem (sep : Char) (cs : List Char) (h : sep ∉ cs) :
    splitChars sep cs = [cs] := by
  induction cs with
  | nil => rfl
  | cons ch rest ih =>
    have h1 : ch ≠ sep := fun hc => h (by simp [hc])
    have h2 : sep ∉ rest := fun hc => h (List.mem_cons_of_mem ch hc)
    simp [splitChars, h1, ih h2]

/-- The key of a name without `/` under the prefix `metadata/` splits in the prefix word and
the name. -/
theorem Split_metadata_key (name : String) (h : '/' ∉ name.data) :
    Split ("metadata/" ++ name) = ["metadata", name] := by
  unfold Split
  have hd : ("metadata/" ++ name).data = "metadata/".data ++ name.data := String.data_append _ _
  rw [hd]
  simp [splitChars, splitChars_of_not_mem '/' name.data h]

/-- Keys made of the same prefix and different names are different. -/
theorem prefix_append_ne (pfx a b : String) (h : a ≠ b) : pfx ++ a ≠ pfx ++ b := by
  intro hab
  have hd := congrArg String.data hab
  simp only [String.data_append, List.append_cancel_left_eq] at hd
  exact h (String.ext hd)

/-- The loop of `GetAvailableJobList` on the keys of names without `/`: the names, in the
order of the keys. -/
theorem jobListLoop_metadata_keys (names jobList : List String)
    (h : ∀ n ∈ names, '/' ∉ n.data) :
    jobListLoop (names.map (fun n => "metadata/" ++ n)) jobList = some (jobList ++ names) := by
  induction names generalizing jobList with
  | nil => simp [jobListLoop]
  | cons n rest ih =>
    have hn := Split_metadata_key n (h n (List.mem_cons_self n rest))
    simp only [List.map_cons, jobListLoop, hn]
    simp [ih (jobList ++ [n]) (fun x hx => h x (List.mem_cons_of_mem n hx))]

/-- A scan of a store all of whose keys are under the prefix returns every entry. -/
theorem Store.scan_all (m : Store) (pfx : String)
    (h : ∀ kv ∈ m, ∃ n : String, kv.1 = pfx ++ n) : Store.scan m pfx = m := by
  unfold Store.scan
  rw [List.filter_eq_self]
  intro kv hkv
  obtain ⟨n, hn⟩ := h kv hkv
  rw [hn, String.data_append, List.isPrefixOf_iff_prefix]
  exact List.prefix_append _ _

/-- Calls of `Save` on the model store for different names none of which is stored: every call
succeeds and the keys of the names are added to the store in the order of the calls. -/
theorem saveEach_model {M : Type} (K : Constants) (p : Codec M) (jobs : List (String × M))
    (w : World Store)
    (hnodup : (jobs.map Prod.fst).Nodup)
    (habs : ∀ j ∈ jobs, Store.get w.db (K.MetadataPrefix ++ j.1) = none)
    (hm : ∀ j ∈ jobs, ∃ v, p.Marshal j.2 = Except.ok v) :
    (saveEach K (modelClient K) p w jobs).1 =
        jobs.map (fun j => (some { Name := j.1 }, none)) ∧
      (saveEach K (modelClient K) p w jobs).2.db.map Prod.fst =
        w.db.map Prod.fst ++ jobs.map (fun j => K.MetadataPrefix ++ j.1) := by
  induction jobs generalizing w with
  | nil => simp [saveEach]
  | cons job rest ih =>
    obtain ⟨v, hv⟩ := hm job (List.mem_cons_self job rest)
    have hab := habs job (List.mem_cons_self job rest)
    have hs := Save_model_absent K p w job.1 job.2 v hv hab
    have hnd : (rest.map Prod.fst).Nodup := (List.nodup_cons.mp hnodup).2
    have hnot : job.1 ∉ rest.map Prod.fst := (List.nodup_cons.mp hnodup).1
    have hrest : ∀ j ∈ rest,
        Store.get (Save K (modelClient K) p w job.1 job.2).2.db (K.MetadataPrefix ++ j.1) =
          none := by
      intro j hj
      have hne : job.1 ≠ j.1 := fun heq => hnot (heq ▸ List.mem_map_of_mem Prod.fst hj)
      rw [hs]
      show Store.get (Store.put w.db (K.MetadataPrefix ++ job.1) v) (K.MetadataPrefix ++ j.1) = none
      rw [Store.get_put_other _ _ _ _ (prefix_append_ne K.MetadataPrefix job.1 j.1 hne)]
      exact habs j (List.mem_cons_of_mem job hj)
    obtain ⟨ih1, ih2⟩ := ih (Save K (modelClient K) p w job.1 job.2).2 hnd hrest
      (fun j hj => hm j (List.mem_cons_of_mem job hj))
    refine ⟨?_, ?_⟩
    · simp only [saveEach, ih1, List.map_cons]
      rw [hs]
    · simp only [saveEach, ih2, List.map_cons]
      rw [hs]
      simp [Store.put_of_get_none w.db (K.MetadataPrefix ++ job.1) v hab]

/-! ## The claims -/

/-- C4: for every key and every record that marshals, if the read of `MetadataPrefix + key`
returns a value that is not empty, `Save` fails with kind `AlreadyExists` and makes no write:
it ends in the world the read left (so in the world it started in when the read leaves the
world alone), and its outcome is the same whatever a write of the client would do. -/
theorem Save_AlreadyExists_without_write {σ M : Type} (K : Constants) (c : Client σ)
    (p : Codec M) (w : World σ) (key : String) (metadata : M) (val : String)
    (hm : p.Marshal metadata = Except.ok val)
    (hv : (c.GetValue w (K.MetadataPrefix ++ key)).1.1 ≠ "") :
    Save K c p w key metadata =
        ((none, some (RepoError.status Code.AlreadyExists (K.Etcd ++ K.KeyAlreadyPresent))),
          (c.GetValue w (K.MetadataPrefix ++ key)).2) ∧
      ((c.GetValue w (K.MetadataPrefix ++ key)).2 = w → (Save K c p w key metadata).2 = w) ∧
      ∀ put : World σ → String → String → Option GoError × World σ,
        Save K { c with PutValue := put } p w key metadata = Save K c p w key metadata := by
  refine ⟨Save_of_value K c p w key metadata val hm hv, ?_, ?_⟩
  · intro h
    rw [Save_of_value K c p w key metadata val hm hv]
    exact h
  · intro put
    rw [Save_of_value K c p w key metadata val hm hv,
      Save_of_value K { c with PutValue := put } p w key metadata val hm hv]

/-- C4, at the store that holds `DemoJob`: a second `Save` of that name. -/
theorem Save_AlreadyExists_without_write_witness :
    sampleCodec.Marshal { Name := "DemoJob" } = Except.ok "NDemoJob" ∧
      ((modelClient sampleConstants).GetValue demoWorld
        (sampleConstants.MetadataPrefix ++ "DemoJob")).1.1 ≠ "" ∧
      Save sampleConstants (modelClient sampleConstants) sampleCodec demoWorld "DemoJob"
          { Name := "DemoJob" } =
        ((none, some (RepoError.status Code.AlreadyExists
            (sampleConstants.Etcd ++ sampleConstants.KeyAlreadyPresent))),
          ((modelClient sampleConstants).GetValue demoWorld
            (sampleConstants.MetadataPrefix ++ "DemoJob")).2) :=
  ⟨rfl, by decide,
    (Save_AlreadyExists_without_write sampleConstants (modelClient sampleConstants) sampleCodec
      demoWorld "DemoJob" { Name := "DemoJob" } "NDemoJob" rfl (by decide)).1⟩

/-- C5: for every list of values that a prefix scan returns without error, if one of the
values does not unmarshal then `GetAll` fails with kind `Internal`, with the message of the
unmarshal error of a scanned value, and returns no collection (`nil`), whatever the other
values are and wherever the value stands in the list. -/
theorem GetAll_all_or_nothing {σ M : Type} (K : Constants) (c : Client σ) (p : Codec M)
    (w : World σ) (bad : String)
    (hs : (c.GetAllValues w K.MetadataPrefix).1.2 = none)
    (hmem : bad ∈ (c.GetAllValues w K.MetadataPrefix).1.1)
    (hbad : ∀ m, p.Unmarshal bad ≠ Except.ok m) :
    ∃ e, (GetAll K c p w).1 = (none, some (RepoError.status Code.Internal e.msg)) ∧
      ∃ v ∈ (c.GetAllValues w K.MetadataPrefix).1.1, p.Unmarshal v = Except.error e := by
  obtain ⟨e, he, hv⟩ :=
    unmarshalLoop_error p (c.GetAllValues w K.MetadataPrefix).1.1 [] ⟨bad, hmem, hbad⟩
  refine ⟨e, ?_, hv⟩
  unfold GetAll
  simp only [hs, he, statusError_Internal]

/-- C5, at a scan of three values of which the second does not unmarshal. -/
theorem GetAll_all_or_nothing_witness :
    ((cannedClient ("", none) none (["NA", "x", "NC"], none) ([], [], none)).GetAllValues
        { db := (), next := 1 } sampleConstants.MetadataPrefix).1.2 = none ∧
      "x" ∈ ((cannedClient ("", none) none (["NA", "x", "NC"], none) ([], [], none)).GetAllValues
        { db := (), next := 1 } sampleConstants.MetadataPrefix).1.1 ∧
      (∀ m, sampleCodec.Unmarshal "x" ≠ Except.ok m) ∧
      ∃ e, (GetAll sampleConstants
          (cannedClient ("", none) none (["NA", "x", "NC"], none) ([], [], none)) sampleCodec
          { db := (), next := 1 }).1 = (none, some (RepoError.status Code.Internal e.msg)) ∧
        ∃ v ∈ ((cannedClient ("", none) none (["NA", "x", "NC"], none)
            ([], [], none)).GetAllValues { db := (), next := 1 }
              sampleConstants.MetadataPrefix).1.1,
          sampleCodec.Unmarshal v = Except.error e :=
  ⟨rfl, by decide, fun _ h => Except.noConfusion h,
    GetAll_all_or_nothing sampleConstants
      (cannedClient ("", none) none (["NA", "x", "NC"], none) ([], [], none)) sampleCodec
      { db := (), next := 1 } "x" rfl (by decide) (fun _ h => Except.noConfusion h)⟩

/-- C7: for every key and every record that marshals, when the read of `MetadataPrefix + key`
reports that no value was found (the empty value with an error whose message is
`NoValueFound`), `Save` makes one write, of the marshalled record under `MetadataPrefix + key`,
in the world the read left, and ends in the world that write left; if the write succeeds
`Save` returns the handle whose name is `key` and no error, and if the write fails `Save`
returns no handle and an error of kind `Internal` with the message of the write error. -/
theorem Save_writes_record_under_key {σ M : Type} (K : Constants) (c : Client σ) (p : Codec M)
    (w : World σ) (key : String) (metadata : M) (val : String) (e : GoError)
    (hm : p.Marshal metadata = Except.ok val)
    (hv : (c.GetValue w (K.MetadataPrefix ++ key)).1.1 = "")
    (hr : (c.GetValue w (K.MetadataPrefix ++ key)).1.2 = some e)
    (he : e.msg = K.NoValueFound) :
    (Save K c p w key metadata).2 =
        (c.PutValue (c.GetValue w (K.MetadataPrefix ++ key)).2
          (K.MetadataPrefix ++ key) val).2 ∧
      ((c.PutValue (c.GetValue w (K.MetadataPrefix ++ key)).2
          (K.MetadataPrefix ++ key) val).1 = none →
        (Save K c p w key metadata).1 = (some { Name := key }, none)) ∧
      ∀ e2, (c.PutValue (c.GetValue w (K.MetadataPrefix ++ key)).2
          (K.MetadataPrefix ++ key) val).1 = some e2 →
        (Save K c p w key metadata).1 = (none, some (RepoError.status Code.Internal e2.msg)) := by
  have hs := Save_put K c p w key metadata val hm hv
    (fun e1 h1 => by rw [hr] at h1; cases h1; exact he)
  rw [hs]
  rcases hp : c.PutValue (c.GetValue w (K.MetadataPrefix ++ key)).2
    (K.MetadataPrefix ++ key) val with ⟨perr, w2⟩
  cases perr with
  | none => simp
  | some e2 => simp

/-- C7, at the empty store: the first `Save` of `DemoJob`, whose write succeeds. -/
theorem Save_writes_record_under_key_witness :
    sampleCodec.Marshal { Name := "DemoJob" } = Except.ok "NDemoJob" ∧
      ((modelClient sampleConstants).GetValue emptyWorld
        (sampleConstants.MetadataPrefix ++ "DemoJob")).1 =
          ("", some { addr := 1, msg := sampleConstants.NoValueFound }) ∧
      (Save sampleConstants (modelClient sampleConstants) sampleCodec emptyWorld "DemoJob"
          { Name := "DemoJob" }).2 =
        ((modelClient sampleConstants).PutValue
          ((modelClient sampleConstants).GetValue emptyWorld
            (sampleConstants.MetadataPrefix ++ "DemoJob")).2
          (sampleConstants.MetadataPrefix ++ "DemoJob") "NDemoJob").2 ∧
      (Save sampleConstants (modelClient sampleConstants) sampleCodec emptyWorld "DemoJob"
          { Name := "DemoJob" }).1 = (some { Name := "DemoJob" }, none) :=
  ⟨rfl, rfl,
    (Save_writes_record_under_key sampleConstants (modelClient sampleConstants) sampleCodec
      emptyWorld "DemoJob" { Name := "DemoJob" } "NDemoJob"
      { addr := 1, msg := sampleConstants.NoValueFound } rfl rfl rfl rfl).1,
    (Save_writes_record_under_key sampleConstants (modelClient sampleConstants) sampleCodec
      emptyWorld "DemoJob" { Name := "DemoJob" } "NDemoJob"
      { addr := 1, msg := sampleConstants.NoValueFound } rfl rfl rfl rfl).2.1 rfl⟩

/-- C8: for every list of values that a prefix scan returns without error and that all
unmarshal, `GetAll` succeeds and returns a collection as long as the scan whose record at
each position is the one unmarshalled from the scanned value at that position. -/
theorem GetAll_records_in_scan_order {σ M : Type} (K : Constants) (c : Client σ) (p : Codec M)
    (w : World σ)
    (hs : (c.GetAllValues w K.MetadataPrefix).1.2 = none)
    (hall : ∀ v ∈ (c.GetAllValues w K.MetadataPrefix).1.1, ∃ m, p.Unmarshal v = Except.ok m) :
    ∃ ms : List M, (GetAll K c p w).1 = (some { Values := ms }, none) ∧
      ms.length = ((c.GetAllValues w K.MetadataPrefix).1.1).length ∧
      ∀ (i : Nat) (v : String), ((c.GetAllValues w K.MetadataPrefix).1.1)[i]? = some v →
        ∃ m, ms[i]? = some m ∧ p.Unmarshal v = Except.ok m := by
  obtain ⟨ms, hms, hrel⟩ := unmarshalLoop_ok p (c.GetAllValues w K.MetadataPrefix).1.1 [] hall
  refine ⟨ms, ?_, (List.Forall₂.length_eq hrel).symm, ?_⟩
  · unfold GetAll
    simp only [hs, hms, List.nil_append]
  · intro i v hv
    exact forall₂_getElem? _ _ _ hrel i v hv

/-- C8, at a scan of three values that unmarshal. -/
theorem GetAll_records_in_scan_order_witness :
    ((cannedClient ("", none) none (["NA", "", "NC"], none) ([], [], none)).GetAllValues
        { db := (), next := 1 } sampleConstants.MetadataPrefix).1.2 = none ∧
      ∃ ms : List Metadata, (GetAll sampleConstants
          (cannedClient ("", none) none (["NA", "", "NC"], none) ([], [], none)) sampleCodec
          { db := (), next := 1 }).1 = (some { Values := ms }, none) ∧
        ms.length = (((cannedClient ("", none) none (["NA", "", "NC"], none)
          ([], [], none)).GetAllValues { db := (), next := 1 }
            sampleConstants.MetadataPrefix).1.1).length ∧
        ∀ (i : Nat) (v : String), (((cannedClient ("", none) none (["NA", "", "NC"], none)
          ([], [], none)).GetAllValues { db := (), next := 1 }
            sampleConstants.MetadataPrefix).1.1)[i]? = some v →
          ∃ m, ms[i]? = some m ∧ sampleCodec.Unmarshal v = Except.ok m :=
  ⟨rfl,
    GetAll_records_in_scan_order sampleConstants
      (cannedClient ("", none) none (["NA", "", "NC"], none) ([], [], none)) sampleCodec
      { db := (), next := 1 } rfl (by
        intro v hv
        have hv3 : v = "NA" ∨ v = "" ∨ v = "NC" := by
          simpa [cannedClient] using hv
        rcases hv3 with rfl | rfl | rfl
        · exact ⟨{ Name := "A" }, rfl⟩
        · exact ⟨{ Name := "" }, rfl⟩
        · exact ⟨{ Name := "C" }, rfl⟩)⟩

/-- C10: for every key and every record that marshals, if the existence read of
`MetadataPrefix + key` fails with an error whose message is not `NoValueFound` (a read that
fails returns the empty value with its error), `Save` fails with kind `Internal`, with the
message of the read error, and makes no write: it ends in the world the read left, and its
outcome is the same whatever a write of the client would do. -/
theorem Save_read_error_is_Internal_without_write {σ M : Type} (K : Constants) (c : Client σ)
    (p : Codec M) (w : World σ) (key : String) (metadata : M) (val : String) (e : GoError)
    (hm : p.Marshal metadata = Except.ok val)
    (hconv : ∀ e1, (c.GetValue w (K.MetadataPrefix ++ key)).1.2 = some e1 →
      (c.GetValue w (K.MetadataPrefix ++ key)).1.1 = "")
    (hr : (c.GetValue w (K.MetadataPrefix ++ key)).1.2 = some e)
    (he : e.msg ≠ K.NoValueFound) :
    (Save K c p w key metadata).1 = (none, some (RepoError.status Code.Internal e.msg)) ∧
      (Save K c p w key metadata).2 = (c.GetValue w (K.MetadataPrefix ++ key)).2 ∧
      ∀ put : World σ → String → String → Option GoError × World σ,
        Save K { c with PutValue := put } p w key metadata = Save K c p w key metadata := by
  have hv := hconv e hr
  have h1 := Save_of_read_error K c p w key metadata val e hm hv hr he
  refine ⟨by rw [h1], by rw [h1], ?_⟩
  intro put
  rw [h1, Save_of_read_error K { c with PutValue := put } p w key metadata val e hm hv hr he]

/-- C10, at a read that fails with a deadline error. -/
theorem Save_read_error_is_Internal_without_write_witness :
    sampleCodec.Marshal { Name := "DemoJob" } = Except.ok "NDemoJob" ∧
      ((cannedClient ("", some { addr := 0, msg := "context deadline exceeded" }) none
        ([], none) ([], [], none)).GetValue { db := (), next := 1 }
          (sampleConstants.MetadataPrefix ++ "DemoJob")).1 =
            ("", some { addr := 0, msg := "context deadline exceeded" }) ∧
      "context deadline exceeded" ≠ sampleConstants.NoValueFound ∧
      (Save sampleConstants
        (cannedClient ("", some { addr := 0, msg := "context deadline exceeded" }) none
          ([], none) ([], [], none)) sampleCodec { db := (), next := 1 } "DemoJob"
        { Name := "DemoJob" }).1 =
          (none, some (RepoError.status Code.Internal "context deadline exceeded")) :=
  ⟨rfl, rfl, by decide,
    (Save_read_error_is_Internal_without_write sampleConstants
      (cannedClient ("", some { addr := 0, msg := "context deadline exceeded" }) none
        ([], none) ([], [], none)) sampleCodec { db := (), next := 1 } "DemoJob"
      { Name := "DemoJob" } "NDemoJob" { addr := 0, msg := "context deadline exceeded" }
      rfl (fun _ _ => rfl) rfl (by decide)).1⟩

/-- C2, on the code: for every job name, when the read of `MetadataPrefix + jobName` reports
that no value was found (the empty value with an error whose message is `NoValueFound`, an
error value that exists when the read returns), `GetValue` fails with kind `Internal`, not
`NotFound`: the error is compared with a value that `errors.New` has just made, and is never
equal to it. -/
theorem GetValue_no_value_found_is_Internal {σ M : Type} (K : Constants) (c : Client σ)
    (p : Codec M) (w : World σ) (jobName : String) (e : GoError)
    (hv : (c.GetValue w (K.MetadataPrefix ++ jobName)).1.1 = "")
    (hr : (c.GetValue w (K.MetadataPrefix ++ jobName)).1.2 = some e)
    (he : e.msg = K.NoValueFound)
    (ha : e.addr < (c.GetValue w (K.MetadataPrefix ++ jobName)).2.next) :
    (c.GetValue w (K.MetadataPrefix ++ jobName)).1 = ("", some e) ∧
      (GetValue K c p w jobName).1 =
        (some p.empty, some (RepoError.status Code.Internal K.NoValueFound)) ∧
      (GetValue K c p w jobName).1.2 ≠ some (RepoError.status Code.NotFound K.NoValueFound) := by
  have h := GetValue_of_read_error K c p w jobName e hr ha
  rw [he] at h
  refine ⟨Prod.ext hv hr, h, ?_⟩
  rw [h]
  simp

/-- C2, on the code, at the empty store: `GetValue` of `NoSuchJob`. -/
theorem GetValue_no_value_found_is_Internal_witness :
    ((modelClient sampleConstants).GetValue emptyWorld
        (sampleConstants.MetadataPrefix ++ "NoSuchJob")).1 =
          ("", some { addr := 1, msg := sampleConstants.NoValueFound }) ∧
      (1 : Nat) < ((modelClient sampleConstants).GetValue emptyWorld
        (sampleConstants.MetadataPrefix ++ "NoSuchJob")).2.next ∧
      (GetValue sampleConstants (modelClient sampleConstants) sampleCodec emptyWorld
        "NoSuchJob").1 =
          (some { Name := "" }, some (RepoError.status Code.Internal "no value found")) :=
  ⟨rfl, by decide,
    (GetValue_no_value_found_is_Internal sampleConstants (modelClient sampleConstants)
      sampleCodec emptyWorld "NoSuchJob" { addr := 1, msg := sampleConstants.NoValueFound }
      rfl rfl rfl (by decide)).2.1⟩

/-- C9: for every input and every behaviour of the client and of the codec, an error that
`Save`, `GetValue`, `GetAll` or `GetAvailableJobList` returns is a status error whose code is
`AlreadyExists`, `NotFound` or `Internal`; it is never an error of the client or of the codec
passed on as it is. -/
theorem returned_errors_in_taxonomy {σ M : Type} (K : Constants) (c : Client σ) (p : Codec M)
    (w : World σ) (key : String) (metadata : M) (jobName : String) :
    (∀ err, (Save K c p w key metadata).1.2 = some err →
        ∃ code msg, err = RepoError.status code msg ∧ code ∈ taxonomy) ∧
      (∀ err, (GetValue K c p w jobName).1.2 = some err →
        ∃ code msg, err = RepoError.status code msg ∧ code ∈ taxonomy) ∧
      (∀ err, (GetAll K c p w).1.2 = some err →
        ∃ code msg, err = RepoError.status code msg ∧ code ∈ taxonomy) ∧
      (∀ res err, GetAvailableJobList K c w = some res → res.1.2 = some err →
        ∃ code msg, err = RepoError.status code msg ∧ code ∈ taxonomy) :=
  ⟨fun err h => Save_error_kind K c p w key metadata err h,
    fun err h => GetValue_error_kind K c p w jobName err h,
    fun err h => GetAll_error_kind K c p w err h,
    fun res err hres h => GetAvailableJobList_error_kind K c w res err hres h⟩

/-- C9, at a client all of whose calls fail: the four operations return `Internal`. -/
theorem returned_errors_in_taxonomy_witness :
    (Save sampleConstants
        (cannedClient ("", some { addr := 0, msg := "unavailable" }) none
          ([], some { addr := 0, msg := "unavailable" })
          ([], [], some { addr := 0, msg := "unavailable" }))
        sampleCodec { db := (), next := 1 } "DemoJob" { Name := "DemoJob" }).1.2 =
          some (RepoError.status Code.Internal "unavailable") ∧
      ∃ code msg, RepoError.status Code.Internal "unavailable" = RepoError.status code msg ∧
        code ∈ taxonomy :=
  ⟨rfl,
    (returned_errors_in_taxonomy sampleConstants
      (cannedClient ("", some { addr := 0, msg := "unavailable" }) none
        ([], some { addr := 0, msg := "unavailable" })
        ([], [], some { addr := 0, msg := "unavailable" }))
      sampleCodec { db := (), next := 1 } "DemoJob" { Name := "DemoJob" } "DemoJob").1
      (RepoError.status Code.Internal "unavailable") rfl⟩

/-- C1, as stated, fails: a record that is marshalled to zero bytes is stored as the empty
value, which the second `Save` reads as no value; the second `Save` succeeds and puts its own
record in the place of the first. -/
theorem Save_twice_empty_record_overwrites :
    Store.get emptyWorld.db (sampleConstants.MetadataPrefix ++ "DemoJob") = none ∧
      sampleCodec.Marshal { Name := "" } = Except.ok "" ∧
      (Save sampleConstants (modelClient sampleConstants) sampleCodec emptyWorld "DemoJob"
        { Name := "" }).1 = (some { Name := "DemoJob" }, none) ∧
      (Save sampleConstants (modelClient sampleConstants) sampleCodec
        (Save sampleConstants (modelClient sampleConstants) sampleCodec emptyWorld "DemoJob"
          { Name := "" }).2 "DemoJob" { Name := "DemoJob" }).1 =
            (some { Name := "DemoJob" }, none) ∧
      Store.get (Save sampleConstants (modelClient sampleConstants) sampleCodec
        (Save sampleConstants (modelClient sampleConstants) sampleCodec emptyWorld "DemoJob"
          { Name := "" }).2 "DemoJob" { Name := "DemoJob" }).2.db
        (sampleConstants.MetadataPrefix ++ "DemoJob") = some "NDemoJob" := by
  refine ⟨rfl, rfl, rfl, rfl, rfl⟩

/-- C1, amended: on the model store, for every job name `key` that is not stored and every
two records that marshal, the first to bytes that are not empty, `Save(key, r1)` succeeds
and the `Save(key, r2)` that follows it fails with kind `AlreadyExists`, leaves the world as
the first call left it, and the value stored under `MetadataPrefix + key` is still the
marshalled `r1`. -/
theorem Save_twice_rejects_second {M : Type} (K : Constants) (p : Codec M) (w : World Store)
    (key : String) (r1 r2 : M) (v1 v2 : String)
    (habs : Store.get w.db (K.MetadataPrefix ++ key) = none)
    (h1 : p.Marshal r1 = Except.ok v1) (hne : v1 ≠ "")
    (h2 : p.Marshal r2 = Except.ok v2) :
    (Save K (modelClient K) p w key r1).1 = (some { Name := key }, none) ∧
      (Save K (modelClient K) p (Save K (modelClient K) p w key r1).2 key r2).1 =
        (none, some (RepoError.status Code.AlreadyExists (K.Etcd ++ K.KeyAlreadyPresent))) ∧
      (Save K (modelClient K) p (Save K (modelClient K) p w key r1).2 key r2).2 =
        (Save K (modelClient K) p w key r1).2 ∧
      Store.get (Save K (modelClient K) p (Save K (modelClient K) p w key r1).2 key r2).2.db
        (K.MetadataPrefix ++ key) = some v1 := by
  have hs1 := Save_model_absent K p w key r1 v1 h1 habs
  have hget : Store.get (Save K (modelClient K) p w key r1).2.db (K.MetadataPrefix ++ key) =
      some v1 := by
    rw [hs1]
    exact Store.get_put_same w.db (K.MetadataPrefix ++ key) v1
  have hs2 := Save_model_present K p (Save K (modelClient K) p w key r1).2 key r2 v2 v1 h2
    hget hne
  refine ⟨by rw [hs1], by rw [hs2], by rw [hs2], ?_⟩
  rw [hs2]
  exact hget

/-- C1, amended, at the empty store: `DemoJob` saved twice. -/
theorem Save_twice_rejects_second_witness :
    Store.get emptyWorld.db (sampleConstants.MetadataPrefix ++ "DemoJob") = none ∧
      sampleCodec.Marshal { Name := "DemoJob" } = Except.ok "NDemoJob" ∧
      "NDemoJob" ≠ "" ∧
      sampleCodec.Marshal { Name := "Other" } = Except.ok "NOther" ∧
      (Save sampleConstants (modelClient sampleConstants) sampleCodec
        (Save sampleConstants (modelClient sampleConstants) sampleCodec emptyWorld "DemoJob"
          { Name := "DemoJob" }).2 "DemoJob" { Name := "Other" }).1 =
            (none, some (RepoError.status Code.AlreadyExists
              (sampleConstants.Etcd ++ sampleConstants.KeyAlreadyPresent))) :=
  ⟨rfl, rfl, by decide, rfl,
    (Save_twice_rejects_second sampleConstants sampleCodec emptyWorld "DemoJob"
      { Name := "DemoJob" } { Name := "Other" } "NDemoJob" "NOther" rfl rfl (by decide)
      rfl).2.1⟩

/-- C3: on the model store, for every job name `key` that is not stored and every record `r`
that the codec marshals to bytes from which it unmarshals `r` again, `Save(key, r)` succeeds
and the `GetValue(key)` that follows it succeeds and returns `r`. -/
theorem Save_then_GetValue_round_trip {M : Type} (K : Constants) (p : Codec M)
    (w : World Store) (key : String) (r : M) (v : String)
    (habs : Store.get w.db (K.MetadataPrefix ++ key) = none)
    (hm : p.Marshal r = Except.ok v) (hu : p.Unmarshal v = Except.ok r) :
    (Save K (modelClient K) p w key r).1 = (some { Name := key }, none) ∧
      (GetValue K (modelClient K) p (Save K (modelClient K) p w key r).2 key).1 =
        (some r, none) := by
  have hs := Save_model_absent K p w key r v hm habs
  refine ⟨by rw [hs], ?_⟩
  apply GetValue_model_present K p _ key v r _ hu
  rw [hs]
  exact Store.get_put_same w.db (K.MetadataPrefix ++ key) v

/-- C3, at the empty store: `DemoJob` saved and read back. -/
theorem Save_then_GetValue_round_trip_witness :
    Store.get emptyWorld.db (sampleConstants.MetadataPrefix ++ "DemoJob") = none ∧
      sampleCodec.Marshal { Name := "DemoJob" } = Except.ok "NDemoJob" ∧
      sampleCodec.Unmarshal "NDemoJob" = Except.ok { Name := "DemoJob" } ∧
      (GetValue sampleConstants (modelClient sampleConstants) sampleCodec
        (Save sampleConstants (modelClient sampleConstants) sampleCodec emptyWorld "DemoJob"
          { Name := "DemoJob" }).2 "DemoJob").1 = (some { Name := "DemoJob" }, none) :=
  ⟨rfl, rfl, rfl,
    (Save_then_GetValue_round_trip sampleConstants sampleCodec emptyWorld "DemoJob"
      { Name := "DemoJob" } "NDemoJob" rfl rfl rfl).2⟩


/-- C6, as stated, fails: a job name that contains `/` is saved, and the listing holds only
the part of the name before the `/`. -/
theorem listing_cuts_name_with_slash :
    (saveEach sampleConstants (modelClient sampleConstants) sampleCodec emptyWorld
        [("a/b", { Name := "a/b" })]).1 = [(some { Name := "a/b" }, none)] ∧
      (GetAvailableJobList sampleConstants (modelClient sampleConstants)
        (saveEach sampleConstants (modelClient sampleConstants) sampleCodec emptyWorld
          [("a/b", { Name := "a/b" })]).2).map (fun res => res.1) =
            some (some { Jobs := ["a"] }, none) := by
  refine ⟨rfl, rfl⟩

/-- C6, amended: on the model store with the prefix `metadata/`, starting from the empty
store, for every list of jobs with different names none of which contains `/` and with
records that marshal, every `Save` succeeds and `GetAvailableJobList` then returns, without
error, a listing that holds the saved names, each once and no other name. -/
theorem listing_reflects_saves {M : Type} (K : Constants) (p : Codec M) (n0 : Nat)
    (jobs : List (String × M))
    (hpre : K.MetadataPrefix = "metadata/")
    (hnodup : (jobs.map Prod.fst).Nodup)
    (hslash : ∀ j ∈ jobs, '/' ∉ j.1.data)
    (hm : ∀ j ∈ jobs, ∃ v, p.Marshal j.2 = Except.ok v) :
    (saveEach K (modelClient K) p { db := [], next := n0 } jobs).1 =
        jobs.map (fun j => (some { Name := j.1 }, none)) ∧
      ∃ listing : List String,
        (GetAvailableJobList K (modelClient K)
          (saveEach K (modelClient K) p { db := [], next := n0 } jobs).2).map
            (fun res => res.1) = some (some { Jobs := listing }, none) ∧
        listing.Perm (jobs.map Prod.fst) := by
  obtain ⟨h1, h2⟩ := saveEach_model K p jobs { db := [], next := n0 } hnodup
    (fun _ _ => rfl) hm
  refine ⟨h1, jobs.map Prod.fst, ?_, List.Perm.refl _⟩
  simp only [List.map_nil, List.nil_append] at h2
  have hkeys : ∀ kv ∈ (saveEach K (modelClient K) p { db := [], next := n0 } jobs).2.db,
      ∃ n : String, kv.1 = K.MetadataPrefix ++ n := by
    intro kv hkv
    have hmem : kv.1 ∈ jobs.map (fun j => K.MetadataPrefix ++ j.1) :=
      h2 ▸ List.mem_map_of_mem Prod.fst hkv
    obtain ⟨j, _, hj⟩ := List.mem_map.mp hmem
    exact ⟨j.1, hj.symm⟩
  have hloop := jobListLoop_metadata_keys (jobs.map Prod.fst) []
    (fun n hn => by
      obtain ⟨j, hj, hjn⟩ := List.mem_map.mp hn
      exact hjn ▸ hslash j hj)
  have hk : (saveEach K (modelClient K) p { db := [], next := n0 } jobs).2.db.map Prod.fst =
      (jobs.map Prod.fst).map (fun n => "metadata/" ++ n) := by
    rw [h2, hpre, List.map_map]
    rfl
  generalize (saveEach K (modelClient K) p { db := [], next := n0 } jobs).2 = wf at hkeys hk
  have hscan : (modelClient K).GetAllKeyAndValues wf K.MetadataPrefix =
      (((Store.scan wf.db K.MetadataPrefix).map Prod.fst,
        (Store.scan wf.db K.MetadataPrefix).map Prod.snd, none), wf) := rfl
  unfold GetAvailableJobList
  simp only [hscan, Store.scan_all _ _ hkeys, hk, hloop, List.nil_append, Option.map_some']

/-- C6, amended, at the jobs `A`, `B` and `C` saved to the empty store. -/
theorem listing_reflects_saves_witness :
    sampleConstants.MetadataPrefix = "metadata/" ∧
      (([("A", { Name := "A" }), ("B", { Name := "B" }), ("C", { Name := "C" })] :
        List (String × Metadata)).map Prod.fst).Nodup ∧
      (∀ j ∈ ([("A", { Name := "A" }), ("B", { Name := "B" }), ("C", { Name := "C" })] :
        List (String × Metadata)), '/' ∉ j.1.data) ∧
      ∃ listing : List String,
        (GetAvailableJobList sampleConstants (modelClient sampleConstants)
          (saveEach sampleConstants (modelClient sampleConstants) sampleCodec
            { db := [], next := 1 }
            [("A", { Name := "A" }), ("B", { Name := "B" }), ("C", { Name := "C" })]).2).map
              (fun res => res.1) = some (some { Jobs := listing }, none) ∧
        listing.Perm (([("A", { Name := "A" }), ("B", { Name := "B" }), ("C", { Name := "C" })] :
          List (String × Metadata)).map Prod.fst) :=
  ⟨rfl, by decide, by decide,
    (listing_reflects_saves sampleConstants sampleCodec 1
      [("A", { Name := "A" }), ("B", { Name := "B" }), ("C", { Name := "C" })]
      rfl (by decide) (by decide)
      (fun j _ => ⟨if j.2.Name = "" then "" else "N" ++ j.2.Name, rfl⟩)).2⟩

/-- C11: for every behaviour of the client in which the prefix scan of the values fails,
`GetAll` fails with kind `Internal`, with the message of the scan error, and the value it
returns with the error is a collection that holds no record: a collection, not `nil`, and
of length zero. -/
theorem GetAll_scan_failure_returns_empty_collection {σ M : Type} (K : Constants)
    (c : Client σ) (p : Codec M) (w : World σ) (e : GoError)
    (hs : (c.GetAllValues w K.MetadataPrefix).1.2 = some e) :
    (GetAll K c p w).1 = (some { Values := [] }, some (RepoError.status Code.Internal e.msg)) ∧
      ∃ arr : MetadataArray M, (GetAll K c p w).1.1 = some arr ∧ arr.Values.length = 0 := by
  have h : (GetAll K c p w).1 =
      (some { Values := [] }, some (RepoError.status Code.Internal e.msg)) := by
    unfold GetAll
    simp only [hs, statusError_Internal]
  exact ⟨h, { Values := [] }, by rw [h], rfl⟩

/-- C11, at a scan that fails after it has produced values. -/
theorem GetAll_scan_failure_returns_empty_collection_witness :
    ((cannedClient ("", none) none (["NA"], some { addr := 0, msg := "unavailable" })
        ([], [], none)).GetAllValues { db := (), next := 1 }
          sampleConstants.MetadataPrefix).1.2 = some { addr := 0, msg := "unavailable" } ∧
      (GetAll sampleConstants
        (cannedClient ("", none) none (["NA"], some { addr := 0, msg := "unavailable" })
          ([], [], none)) sampleCodec { db := (), next := 1 }).1 =
            (some { Values := [] }, some (RepoError.status Code.Internal "unavailable")) :=
  ⟨rfl,
    (GetAll_scan_failure_returns_empty_collection sampleConstants
      (cannedClient ("", none) none (["NA"], some { addr := 0, msg := "unavailable" })
        ([], [], none)) sampleCodec { db := (), next := 1 }
      { addr := 0, msg := "unavailable" } rfl).1⟩

/-- C12: the name derived from the key `"metadata/" ++ name` of a name without `/` is the
name; and when the scan returns, without error, the keys of a list of such names,
`GetAvailableJobList` returns the listing of these names in the order of the keys, as long as
the list of keys. -/
theorem listing_inverts_key_of_name {σ : Type} (K : Constants) (c : Client σ) (w : World σ)
    (names : List String)
    (hslash : ∀ n ∈ names, '/' ∉ n.data)
    (hkeys : (c.GetAllKeyAndValues w K.MetadataPrefix).1.1 =
      names.map (fun n => "metadata/" ++ n))
    (hs : (c.GetAllKeyAndValues w K.MetadataPrefix).1.2.2 = none) :
    (∀ n ∈ names, (Split ("metadata/" ++ n))[1]? = some n) ∧
      GetAvailableJobList K c w =
        some ((some { Jobs := names }, none), (c.GetAllKeyAndValues w K.MetadataPrefix).2) ∧
      names.length = ((c.GetAllKeyAndValues w K.MetadataPrefix).1.1).length ∧
      ∀ (i : Nat) (n : String), names[i]? = some n →
        ((c.GetAllKeyAndValues w K.MetadataPrefix).1.1)[i]? = some ("metadata/" ++ n) := by
  refine ⟨?_, ?_, ?_, ?_⟩
  · intro n hn
    rw [Split_metadata_key n (hslash n hn)]
    rfl
  · unfold GetAvailableJobList
    simp only [hs, hkeys, jobListLoop_metadata_keys names [] hslash, List.nil_append]
  · rw [hkeys, List.length_map]
  · intro i n hn
    rw [hkeys, List.getElem?_map, hn]
    rfl

/-- C12, at a scan that returns the keys of `DemoJob` and `B`. -/
theorem listing_inverts_key_of_name_witness :
    (∀ n ∈ ["DemoJob", "B"], '/' ∉ n.data) ∧
      ((cannedClient ("", none) none ([], none)
        (["metadata/DemoJob", "metadata/B"], ["NDemoJob", "NB"], none)).GetAllKeyAndValues
          { db := (), next := 1 } sampleConstants.MetadataPrefix).1.1 =
            ["DemoJob", "B"].map (fun n => "metadata/" ++ n) ∧
      GetAvailableJobList sampleConstants
        (cannedClient ("", none) none ([], none)
          (["metadata/DemoJob", "metadata/B"], ["NDemoJob", "NB"], none))
        { db := (), next := 1 } =
          some ((some { Jobs := ["DemoJob", "B"] }, none),
            ((cannedClient ("", none) none ([], none)
              (["metadata/DemoJob", "metadata/B"], ["NDemoJob", "NB"],
                none)).GetAllKeyAndValues { db := (), next := 1 }
                  sampleConstants.MetadataPrefix).2) :=
  ⟨by decide, by decide,
    (listing_inverts_key_of_name sampleConstants
      (cannedClient ("", none) none ([], none)
        (["metadata/DemoJob", "metadata/B"], ["NDemoJob", "NB"], none))
      { db := (), next := 1 } ["DemoJob", "B"] (by decide) (by decide) rfl).2.1⟩

/-- C13: for every job name, `GetValue` succeeds exactly when the read of
`MetadataPrefix + jobName` returns no error and the value it returns unmarshals, and it then
returns the unmarshalled record; a read error with another message than `NoValueFound` (an
error value that exists when the read returns) and an unmarshal error both give kind
`Internal`, with the message of the error. -/
theorem GetValue_result_characterisation {σ M : Type} (K : Constants) (c : Client σ)
    (p : Codec M) (w : World σ) (jobName : String) :
    ((GetValue K c p w jobName).1.2 = none ↔
        ((c.GetValue w (K.MetadataPrefix ++ jobName)).1.2 = none ∧
          ∃ m, p.Unmarshal (c.GetValue w (K.MetadataPrefix ++ jobName)).1.1 = Except.ok m)) ∧
      (∀ m, (c.GetValue w (K.MetadataPrefix ++ jobName)).1.2 = none →
        p.Unmarshal (c.GetValue w (K.MetadataPrefix ++ jobName)).1.1 = Except.ok m →
        (GetValue K c p w jobName).1 = (some m, none)) ∧
      (∀ e, (c.GetValue w (K.MetadataPrefix ++ jobName)).1.2 = some e →
        e.msg ≠ K.NoValueFound →
        e.addr < (c.GetValue w (K.MetadataPrefix ++ jobName)).2.next →
        (GetValue K c p w jobName).1 =
          (some p.empty, some (RepoError.status Code.Internal e.msg))) ∧
      (∀ e, (c.GetValue w (K.MetadataPrefix ++ jobName)).1.2 = none →
        p.Unmarshal (c.GetValue w (K.MetadataPrefix ++ jobName)).1.1 = Except.error e →
        (GetValue K c p w jobName).1 =
          (some p.empty, some (RepoError.status Code.Internal e.msg))) := by
  have hok : ∀ m, (c.GetValue w (K.MetadataPrefix ++ jobName)).1.2 = none →
      p.Unmarshal (c.GetValue w (K.MetadataPrefix ++ jobName)).1.1 = Except.ok m →
      (GetValue K c p w jobName).1 = (some m, none) := by
    intro m hr hu
    unfold GetValue
    simp only [hr, hu]
  have herr : ∀ e, (c.GetValue w (K.MetadataPrefix ++ jobName)).1.2 = none →
      p.Unmarshal (c.GetValue w (K.MetadataPrefix ++ jobName)).1.1 = Except.error e →
      (GetValue K c p w jobName).1 =
        (some p.empty, some (RepoError.status Code.Internal e.msg)) := by
    intro e hr hu
    unfold GetValue
    simp only [hr, hu, statusError_Internal]
  refine ⟨⟨?_, ?_⟩, hok, ?_, herr⟩
  · intro h
    cases hr : (c.GetValue w (K.MetadataPrefix ++ jobName)).1.2 with
    | some e =>
      exfalso
      unfold GetValue at h
      simp only [hr] at h
      split at h <;> simp [statusError] at h
    | none =>
      refine ⟨rfl, ?_⟩
      cases hu : p.Unmarshal (c.GetValue w (K.MetadataPrefix ++ jobName)).1.1 with
      | ok m => exact ⟨m, rfl⟩
      | error e =>
        rw [herr e hr hu] at h
        simp at h
  · rintro ⟨hr, m, hu⟩
    rw [hok m hr hu]
  · intro e hr _ ha
    exact GetValue_of_read_error K c p w jobName e hr ha

/-- C13, at the store that holds `DemoJob`: the read succeeds and the value unmarshals. -/
theorem GetValue_result_characterisation_witness :
    ((modelClient sampleConstants).GetValue demoWorld
        (sampleConstants.MetadataPrefix ++ "DemoJob")).1.2 = none ∧
      sampleCodec.Unmarshal ((modelClient sampleConstants).GetValue demoWorld
        (sampleConstants.MetadataPrefix ++ "DemoJob")).1.1 = Except.ok { Name := "DemoJob" } ∧
      (GetValue sampleConstants (modelClient sampleConstants) sampleCodec demoWorld
        "DemoJob").1 = (some { Name := "DemoJob" }, none) :=
  ⟨rfl, rfl,
    (GetValue_result_characterisation sampleConstants (modelClient sampleConstants) sampleCodec
      demoWorld "DemoJob").2.1 { Name := "DemoJob" } rfl rfl⟩

/-- The store after `Save` on the model store: the store before it, or that store with one
write under `MetadataPrefix + key`. -/
theorem Save_model_db {M : Type} (K : Constants) (p : Codec M) (w : World Store)
    (key : String) (metadata : M) :
    (Save K (modelClient K) p w key metadata).2.db = w.db ∨
      ∃ val, (Save K (modelClient K) p w key metadata).2.db =
        Store.put w.db (K.MetadataPrefix ++ key) val := by
  cases hm : p.Marshal metadata with
  | error e =>
    left
    unfold Save
    simp only [hm]
  | ok val =>
    cases hget : Store.get w.db (K.MetadataPrefix ++ key) with
    | none =>
      right
      exact ⟨val, by rw [Save_model_absent K p w key metadata val hm hget]⟩
    | some v =>
      have hg := modelClient_GetValue_some K w (K.MetadataPrefix ++ key) v hget
      by_cases hv : v = ""
      · right
        refine ⟨val, ?_⟩
        rw [Save_put K (modelClient K) p w key metadata val hm (by rw [hg]; exact hv)
          (fun e he => by rw [hg] at he; cases he), hg]
        rfl
      · left
        rw [Save_model_present K p w key metadata val v hm hget hv]

/-- The result of `Save` on the model store is decided by what the store holds under
`MetadataPrefix + key`. -/
theorem Save_model_result_congr {M : Type} (K : Constants) (p : Codec M) (w w2 : World Store)
    (key : String) (metadata : M)
    (h : Store.get w2.db (K.MetadataPrefix ++ key) = Store.get w.db (K.MetadataPrefix ++ key)) :
    (Save K (modelClient K) p w2 key metadata).1 = (Save K (modelClient K) p w key metadata).1 := by
  cases hm : p.Marshal metadata with
  | error e =>
    unfold Save
    simp only [hm]
  | ok val =>
    cases hget : Store.get w.db (K.MetadataPrefix ++ key) with
    | none =>
      rw [Save_model_absent K p w key metadata val hm hget,
        Save_model_absent K p w2 key metadata val hm (h.trans hget)]
    | some v =>
      have hg := modelClient_GetValue_some K w (K.MetadataPrefix ++ key) v hget
      have hg2 := modelClient_GetValue_some K w2 (K.MetadataPrefix ++ key) v (h.trans hget)
      by_cases hv : v = ""
      · rw [Save_put K (modelClient K) p w key metadata val hm (by rw [hg]; exact hv)
            (fun e he => by rw [hg] at he; cases he),
          Save_put K (modelClient K) p w2 key metadata val hm (by rw [hg2]; exact hv)
            (fun e he => by rw [hg2] at he; cases he), hg, hg2]
        rfl
      · rw [Save_model_present K p w key metadata val v hm hget hv,
          Save_model_present K p w2 key metadata val v hm (h.trans hget) hv]

/-- The result of `GetValue` on the model store is decided by what the store holds under
`MetadataPrefix + jobName`. -/
theorem GetValue_model_result_congr {M : Type} (K : Constants) (p : Codec M)
    (w w2 : World Store) (jobName : String)
    (h : Store.get w2.db (K.MetadataPrefix ++ jobName) =
      Store.get w.db (K.MetadataPrefix ++ jobName)) :
    (GetValue K (modelClient K) p w2 jobName).1 = (GetValue K (modelClient K) p w jobName).1 := by
  cases hget : Store.get w.db (K.MetadataPrefix ++ jobName) with
  | none =>
    have hg := modelClient_GetValue_none K w (K.MetadataPrefix ++ jobName) hget
    have hg2 := modelClient_GetValue_none K w2 (K.MetadataPrefix ++ jobName) (h.trans hget)
    rw [GetValue_of_read_error K (modelClient K) p w jobName
        { addr := w.next, msg := K.NoValueFound } (by rw [hg]) (by rw [hg]; exact Nat.lt_succ_self _),
      GetValue_of_read_error K (modelClient K) p w2 jobName
        { addr := w2.next, msg := K.NoValueFound } (by rw [hg2])
        (by rw [hg2]; exact Nat.lt_succ_self _)]
  | some v =>
    have hg := modelClient_GetValue_some K w (K.MetadataPrefix ++ jobName) v hget
    have hg2 := modelClient_GetValue_some K w2 (K.MetadataPrefix ++ jobName) v (h.trans hget)
    unfold GetValue
    simp only [hg, hg2]
    cases p.Unmarshal v <;> rfl

/-- C14: on the model store, for every two different job names `k1` and `k2` and every
record, a call `Save(k1, r)`, whether it succeeds or fails, leaves every key other than
`MetadataPrefix + k1` with the value it had, `MetadataPrefix + k2` among them, and the results
of `GetValue(k2)` and of `Save(k2, r2)` are the same after the call as before it. -/
theorem Save_leaves_other_names {M : Type} (K : Constants) (p : Codec M) (w : World Store)
    (k1 k2 : String) (r : M) (hne : k1 ≠ k2) :
    Store.get (Save K (modelClient K) p w k1 r).2.db (K.MetadataPrefix ++ k2) =
        Store.get w.db (K.MetadataPrefix ++ k2) ∧
      (∀ k, K.MetadataPrefix ++ k1 ≠ k →
        Store.get (Save K (modelClient K) p w k1 r).2.db k = Store.get w.db k) ∧
      (GetValue K (modelClient K) p (Save K (modelClient K) p w k1 r).2 k2).1 =
        (GetValue K (modelClient K) p w k2).1 ∧
      ∀ r2, (Save K (modelClient K) p (Save K (modelClient K) p w k1 r).2 k2 r2).1 =
        (Save K (modelClient K) p w k2 r2).1 := by
  have hframe : ∀ k, K.MetadataPrefix ++ k1 ≠ k →
      Store.get (Save K (modelClient K) p w k1 r).2.db k = Store.get w.db k := by
    intro k hk
    rcases Save_model_db K p w k1 r with h | ⟨val, h⟩
    · rw [h]
    · rw [h, Store.get_put_other _ _ _ _ hk]
  have hk2 := hframe (K.MetadataPrefix ++ k2) (prefix_append_ne K.MetadataPrefix k1 k2 hne)
  exact ⟨hk2, hframe, GetValue_model_result_congr K p w _ k2 hk2,
    fun r2 => Save_model_result_congr K p w _ k2 r2 hk2⟩

/-- C14, at the store that holds `DemoJob`: a `Save` of the name `B`. -/
theorem Save_leaves_other_names_witness :
    "B" ≠ "DemoJob" ∧
      Store.get (Save sampleConstants (modelClient sampleConstants) sampleCodec demoWorld "B"
        { Name := "B" }).2.db (sampleConstants.MetadataPrefix ++ "DemoJob") =
          Store.get demoWorld.db (sampleConstants.MetadataPrefix ++ "DemoJob") ∧
      (GetValue sampleConstants (modelClient sampleConstants) sampleCodec
        (Save sampleConstants (modelClient sampleConstants) sampleCodec demoWorld "B"
          { Name := "B" }).2 "DemoJob").1 =
        (GetValue sampleConstants (modelClient sampleConstants) sampleCodec demoWorld
          "DemoJob").1 :=
  ⟨by decide,
    (Save_leaves_other_names sampleConstants sampleCodec demoWorld "B" "DemoJob" { Name := "B" }
      (by decide)).1,
    (Save_leaves_other_names sampleConstants sampleCodec demoWorld "B" "DemoJob" { Name := "B" }
      (by decide)).2.2.1⟩

/-- `Save` is its first step and, when that step has not ended the call, its second step in
the world the first one left. -/
theorem Save_eq_steps {σ M : Type} (K : Constants) (c : Client σ) (p : Codec M) (w : World σ)
    (key : String) (metadata : M) :
    Save K c p w key metadata =
      match SaveRead K c p w key metadata with
      | (Except.error err, w1) => ((none, err), w1)
      | (Except.ok val, w1) => SaveWrite K c w1 key val := by
  unfold Save SaveRead SaveWrite
  cases p.Marshal metadata with
  | error e => rfl
  | ok val =>
    by_cases hv : (c.GetValue w (K.MetadataPrefix ++ key)).1.1 = ""
    · cases hr : (c.GetValue w (K.MetadataPrefix ++ key)).1.2 with
      | none => simp [hv, hr]
      | some e =>
        by_cases he : e.msg = K.NoValueFound
        · simp [hv, hr, he]
        · simp [hv, hr, he]
    · simp [hv]

/-- The first step of `Save` on the model store for a name that is not stored lets the call
go on to its write, and leaves the store as it is. -/
theorem SaveRead_model_absent {M : Type} (K : Constants) (p : Codec M) (w : World Store)
    (key : String) (metadata : M) (val : String)
    (hm : p.Marshal metadata = Except.ok val)
    (habs : Store.get w.db (K.MetadataPrefix ++ key) = none) :
    SaveRead K (modelClient K) p w key metadata =
      (Except.ok val, { db := w.db, next := w.next + 1 }) := by
  have hg := modelClient_GetValue_none K w (K.MetadataPrefix ++ key) habs
  unfold SaveRead
  simp [hm, hg]

/-- The second step of `Save` on the model store: the write succeeds. -/
theorem SaveWrite_model (K : Constants) (w : World Store) (key val : String) :
    SaveWrite K (modelClient K) w key val =
      ((some { Name := key }, none),
        { db := Store.put w.db (K.MetadataPrefix ++ key) val, next := w.next }) := rfl

/-- C15: with `Save` taken as its two steps on the store, the existence read and the write,
two calls for the same job name that is not stored, with records that marshal, can be
interleaved so that both reads come before both writes: then both reads let their call go on,
both calls return success, neither is refused with `AlreadyExists`, and the store ends with
the record of the call that wrote last, in either order of the two writes.  (One call alone
is its read followed by its write.) -/
theorem Save_race_window {M : Type} (K : Constants) (p : Codec M) (w : World Store)
    (key : String) (r1 r2 : M) (v1 v2 : String)
    (habs : Store.get w.db (K.MetadataPrefix ++ key) = none)
    (h1 : p.Marshal r1 = Except.ok v1) (h2 : p.Marshal r2 = Except.ok v2) :
    Save K (modelClient K) p w key r1 =
        SaveWrite K (modelClient K) (SaveRead K (modelClient K) p w key r1).2 key v1 ∧
      (SaveRead K (modelClient K) p w key r1).1 = Except.ok v1 ∧
      (SaveRead K (modelClient K) p (SaveRead K (modelClient K) p w key r1).2 key r2).1 =
        Except.ok v2 ∧
      (SaveWrite K (modelClient K)
        (SaveRead K (modelClient K) p (SaveRead K (modelClient K) p w key r1).2 key r2).2
        key v1).1 = (some { Name := key }, none) ∧
      (SaveWrite K (modelClient K)
        (SaveWrite K (modelClient K)
          (SaveRead K (modelClient K) p (SaveRead K (modelClient K) p w key r1).2 key r2).2
          key v1).2 key v2).1 = (some { Name := key }, none) ∧
      Store.get (SaveWrite K (modelClient K)
        (SaveWrite K (modelClient K)
          (SaveRead K (modelClient K) p (SaveRead K (modelClient K) p w key r1).2 key r2).2
          key v1).2 key v2).2.db (K.MetadataPrefix ++ key) = some v2 ∧
      (SaveWrite K (modelClient K)
        (SaveRead K (modelClient K) p (SaveRead K (modelClient K) p w key r1).2 key r2).2
        key v2).1 = (some { Name := key }, none) ∧
      (SaveWrite K (modelClient K)
        (SaveWrite K (modelClient K)
          (SaveRead K (modelClient K) p (SaveRead K (modelClient K) p w key r1).2 key r2).2
          key v2).2 key v1).1 = (some { Name := key }, none) ∧
      Store.get (SaveWrite K (modelClient K)
        (SaveWrite K (modelClient K)
          (SaveRead K (modelClient K) p (SaveRead K (modelClient K) p w key r1).2 key r2).2
          key v2).2 key v1).2.db (K.MetadataPrefix ++ key) = some v1 := by
  have hr1 := SaveRead_model_absent K p w key r1 v1 h1 habs
  have hr2 := SaveRead_model_absent K p { db := w.db, next := w.next + 1 } key r2 v2 h2 habs
  have hsteps := Save_eq_steps K (modelClient K) p w key r1
  rw [hr1] at hsteps
  rw [hr1, hr2]
  simp only [SaveWrite_model]
  exact ⟨hsteps, trivial, trivial, trivial, trivial, Store.get_put_same _ _ _, trivial, trivial,
    Store.get_put_same _ _ _⟩

/-- C15, at the empty store: two calls for `DemoJob` with the records `First` and `Second`. -/
theorem Save_race_window_witness :
    Store.get emptyWorld.db (sampleConstants.MetadataPrefix ++ "DemoJob") = none ∧
      sampleCodec.Marshal { Name := "First" } = Except.ok "NFirst" ∧
      sampleCodec.Marshal { Name := "Second" } = Except.ok "NSecond" ∧
      Store.get (SaveWrite sampleConstants (modelClient sampleConstants)
        (SaveWrite sampleConstants (modelClient sampleConstants)
          (SaveRead sampleConstants (modelClient sampleConstants) sampleCodec
            (SaveRead sampleConstants (modelClient sampleConstants) sampleCodec emptyWorld
              "DemoJob" { Name := "First" }).2 "DemoJob" { Name := "Second" }).2
          "DemoJob" "NFirst").2 "DemoJob" "NSecond").2.db
        (sampleConstants.MetadataPrefix ++ "DemoJob") = some "NSecond" :=
  ⟨rfl, rfl, rfl,
    (Save_race_window sampleConstants sampleCodec emptyWorld "DemoJob" { Name := "First" }
      { Name := "Second" } "NFirst" "NSecond" rfl rfl rfl).2.2.2.2.2.1⟩

/-- A split has one piece more than the text has separators. -/
theorem splitChars_length (sep : Char) (cs : List Char) :
    (splitChars sep cs).length = cs.count sep + 1 := by
  induction cs with
  | nil => rfl
  | cons ch rest ih =>
    by_cases h : ch = sep
    · subst h
      simp [splitChars, ih]
    · have hc : (ch == sep) = false := by simpa using h
      cases hsp : splitChars sep rest with
      | nil => rw [hsp] at ih; simp at ih
      | cons seg segs =>
        rw [hsp] at ih
        simp only [splitChars, h, if_false, hsp, List.length_cons, List.count_cons, hc]
        simpa using ih

/-- A key with a `/` has a segment 1. -/
theorem Split_segment_one_of_mem (key : String) (h : '/' ∈ key.data) :
    ∃ name, (Split key)[1]? = some name := by
  have hlen : 1 < (Split key).length := by
    unfold Split
    rw [List.length_map, splitChars_length]
    have := List.count_pos_iff.mpr h
    omega
  exact ⟨(Split key)[1], List.getElem?_eq_getElem hlen⟩

/-- A key without `/` has no segment 1. -/
theorem Split_segment_one_of_not_mem (key : String) (h : '/' ∉ key.data) :
    Split key = [key] ∧ (Split key)[1]? = none := by
  have hs : Split key = [key] := by
    unfold Split
    rw [splitChars_of_not_mem '/' key.data h]
    rfl
  exact ⟨hs, by rw [hs]; rfl⟩

/-- The loop of `GetAvailableJobList` on keys that all have a `/` ends with one name for each
key. -/
theorem jobListLoop_of_all_mem (keys jobList : List String) (h : ∀ k ∈ keys, '/' ∈ k.data) :
    ∃ names, jobListLoop keys jobList = some names ∧
      names.length = jobList.length + keys.length := by
  induction keys generalizing jobList with
  | nil => exact ⟨jobList, rfl, rfl⟩
  | cons key rest ih =>
    obtain ⟨name, hname⟩ := Split_segment_one_of_mem key (h key (List.mem_cons_self key rest))
    obtain ⟨names, hn, hl⟩ := ih (jobList ++ [name])
      (fun k hk => h k (List.mem_cons_of_mem key hk))
    refine ⟨names, ?_, ?_⟩
    · simp only [jobListLoop, hname, hn]
    · rw [hl]
      simp only [List.length_append, List.length_cons, List.length_nil]
      omega

/-- The loop of `GetAvailableJobList` on keys of which one has no `/` does not end with a
listing. -/
theorem jobListLoop_of_not_mem (keys jobList : List String)
    (h : ∃ k ∈ keys, '/' ∉ k.data) : jobListLoop keys jobList = none := by
  induction keys generalizing jobList with
  | nil => obtain ⟨k, hk, _⟩ := h; simp at hk
  | cons key rest ih =>
    by_cases hkey : '/' ∈ key.data
    · obtain ⟨name, hname⟩ := Split_segment_one_of_mem key hkey
      have hrest : ∃ k ∈ rest, '/' ∉ k.data := by
        obtain ⟨k, hk, hbad⟩ := h
        rcases List.mem_cons.mp hk with rfl | hk
        · exact absurd hkey hbad
        · exact ⟨k, hk, hbad⟩
      simp only [jobListLoop, hname, ih (jobList ++ [name]) hrest]
    · simp only [jobListLoop, (Split_segment_one_of_not_mem key hkey).2]

/-- C16: when the scan returns its keys without error, if every key has at least one `/` then
segment 1 of every split is there and `GetAvailableJobList` returns normally, without error,
a listing with one name for each key; and if one of the keys has no `/`, the split of that
key is the key alone, it has no segment 1, and `GetAvailableJobList` has no result (the index
is out of range): it does not return an error of kind `Internal`, nor anything else. -/
theorem GetAvailableJobList_index_safety {σ : Type} (K : Constants) (c : Client σ)
    (w : World σ)
    (hs : (c.GetAllKeyAndValues w K.MetadataPrefix).1.2.2 = none) :
    ((∀ k ∈ (c.GetAllKeyAndValues w K.MetadataPrefix).1.1, '/' ∈ k.data) →
        ∃ names, GetAvailableJobList K c w =
            some ((some { Jobs := names }, none), (c.GetAllKeyAndValues w K.MetadataPrefix).2) ∧
          names.length = ((c.GetAllKeyAndValues w K.MetadataPrefix).1.1).length) ∧
      (∀ k ∈ (c.GetAllKeyAndValues w K.MetadataPrefix).1.1, '/' ∉ k.data →
        Split k = [k] ∧ (Split k)[1]? = none ∧ GetAvailableJobList K c w = none) := by
  refine ⟨?_, ?_⟩
  · intro hall
    obtain ⟨names, hn, hl⟩ :=
      jobListLoop_of_all_mem (c.GetAllKeyAndValues w K.MetadataPrefix).1.1 [] hall
    refine ⟨names, ?_, by simpa using hl⟩
    unfold GetAvailableJobList
    simp only [hs, hn]
  · intro k hk hbad
    refine ⟨(Split_segment_one_of_not_mem k hbad).1, (Split_segment_one_of_not_mem k hbad).2, ?_⟩
    unfold GetAvailableJobList
    simp only [hs, jobListLoop_of_not_mem _ [] ⟨k, hk, hbad⟩]

/-- C16, at a scan that returns a key with a `/` and then a key without: the operation has
no result. -/
theorem GetAvailableJobList_index_safety_witness :
    ((cannedClient ("", none) none ([], none)
        (["metadata/DemoJob", "stray"], ["NDemoJob", "NB"], none)).GetAllKeyAndValues
          { db := (), next := 1 } sampleConstants.MetadataPrefix).1.2.2 = none ∧
      "stray" ∈ ((cannedClient ("", none) none ([], none)
        (["metadata/DemoJob", "stray"], ["NDemoJob", "NB"], none)).GetAllKeyAndValues
          { db := (), next := 1 } sampleConstants.MetadataPrefix).1.1 ∧
      '/' ∉ "stray".data ∧
      GetAvailableJobList sampleConstants
        (cannedClient ("", none) none ([], none)
          (["metadata/DemoJob", "stray"], ["NDemoJob", "NB"], none))
        { db := (), next := 1 } = none :=
  ⟨rfl, by decide, by decide,
    ((GetAvailableJobList_index_safety sampleConstants
      (cannedClient ("", none) none ([], none)
        (["metadata/DemoJob", "stray"], ["NDemoJob", "NB"], none))
      { db := (), next := 1 } rfl).2 "stray" (by decide) (by decide)).2.2⟩

/-- The read of a recording client returns what the read of the recorded client returns. -/
theorem recordingClient_GetValue {σ : Type} (c : Client σ) (w : World σ)
    (writes : List (String × String)) (k : String) :
    ((recordingClient c).GetValue (recordingWorld w writes) k).1 = (c.GetValue w k).1 ∧
      ((recordingClient c).GetValue (recordingWorld w writes) k).2 =
        recordingWorld (c.GetValue w k).2 writes :=
  ⟨rfl, rfl⟩

/-- The writes recorded during `Save` when its read returns the empty value and nothing
against a write: the one write of the marshalled record under the namespaced key. -/
theorem Save_recorded_put {σ M : Type} (K : Constants) (c : Client σ) (p : Codec M)
    (w : World σ) (writes : List (String × String)) (key : String) (metadata : M)
    (val : String)
    (hm : p.Marshal metadata = Except.ok val)
    (hv : (c.GetValue w (K.MetadataPrefix ++ key)).1.1 = "")
    (he : ∀ e, (c.GetValue w (K.MetadataPrefix ++ key)).1.2 = some e → e.msg = K.NoValueFound) :
    (Save K (recordingClient c) p (recordingWorld w writes) key metadata).2.db.2 =
      writes ++ [(K.MetadataPrefix ++ key, val)] := by
  rw [Save_put K (recordingClient c) p (recordingWorld w writes) key metadata val hm hv he]
  rcases hp : (recordingClient c).PutValue
    ((recordingClient c).GetValue (recordingWorld w writes) (K.MetadataPrefix ++ key)).2
    (K.MetadataPrefix ++ key) val with ⟨perr, w2⟩
  have hw : w2.db.2 = writes ++ [(K.MetadataPrefix ++ key, val)] := by
    have h2 := congrArg (fun x => x.2.db.2) hp
    exact h2.symm
  cases perr <;> exact hw

/-- The writes recorded during `Save` when its read returns a value that is not empty, or an
error with another message than `NoValueFound`: none. -/
theorem Save_recorded_none {σ M : Type} (K : Constants) (c : Client σ) (p : Codec M)
    (w : World σ) (writes : List (String × String)) (key : String) (metadata : M)
    (val : String)
    (hm : p.Marshal metadata = Except.ok val)
    (h : (c.GetValue w (K.MetadataPrefix ++ key)).1.1 ≠ "" ∨
      ∃ e, (c.GetValue w (K.MetadataPrefix ++ key)).1.2 = some e ∧ e.msg ≠ K.NoValueFound) :
    (Save K (recordingClient c) p (recordingWorld w writes) key metadata).2.db.2 = writes := by
  by_cases hv : (c.GetValue w (K.MetadataPrefix ++ key)).1.1 = ""
  · rcases h with h | ⟨e, hr, he⟩
    · exact absurd hv h
    · rw [Save_of_read_error K (recordingClient c) p (recordingWorld w writes) key metadata val e
        hm hv hr he]
      rfl
  · rw [Save_of_value K (recordingClient c) p (recordingWorld w writes) key metadata val hm hv]
    rfl

/-- The writes recorded during `Save` of a record that marshals: the one write when the read
returned the empty value with no error or with the `NoValueFound` message, none otherwise. -/
theorem Save_recorded_cases {σ M : Type} (K : Constants) (c : Client σ) (p : Codec M)
    (w : World σ) (writes : List (String × String)) (key : String) (metadata : M)
    (val : String) (hm : p.Marshal metadata = Except.ok val) :
    (((c.GetValue w (K.MetadataPrefix ++ key)).1.1 = "" ∧
          ((c.GetValue w (K.MetadataPrefix ++ key)).1.2 = none ∨
            ∃ e, (c.GetValue w (K.MetadataPrefix ++ key)).1.2 = some e ∧
              e.msg = K.NoValueFound)) ∧
        (Save K (recordingClient c) p (recordingWorld w writes) key metadata).2.db.2 =
          writes ++ [(K.MetadataPrefix ++ key, val)]) ∨
      (¬ ((c.GetValue w (K.MetadataPrefix ++ key)).1.1 = "" ∧
          ((c.GetValue w (K.MetadataPrefix ++ key)).1.2 = none ∨
            ∃ e, (c.GetValue w (K.MetadataPrefix ++ key)).1.2 = some e ∧
              e.msg = K.NoValueFound)) ∧
        (Save K (recordingClient c) p (recordingWorld w writes) key metadata).2.db.2 =
          writes) := by
  by_cases hv : (c.GetValue w (K.MetadataPrefix ++ key)).1.1 = ""
  · cases hr : (c.GetValue w (K.MetadataPrefix ++ key)).1.2 with
    | none =>
      left
      exact ⟨⟨hv, Or.inl rfl⟩,
        Save_recorded_put K c p w writes key metadata val hm hv
          (fun e he => by rw [hr] at he; cases he)⟩
    | some e =>
      by_cases he : e.msg = K.NoValueFound
      · left
        exact ⟨⟨hv, Or.inr ⟨e, rfl, he⟩⟩,
          Save_recorded_put K c p w writes key metadata val hm hv
            (fun e1 he1 => by rw [hr] at he1; cases he1; exact he)⟩
      · right
        refine ⟨?_, Save_recorded_none K c p w writes key metadata val hm
          (Or.inr ⟨e, hr, he⟩)⟩
        rintro ⟨_, h | ⟨e1, he1, hmsg⟩⟩
        · cases h
        · cases he1
          exact he hmsg
  · right
    exact ⟨fun h => hv h.1,
      Save_recorded_none K c p w writes key metadata val hm (Or.inl hv)⟩

/-- The name of a handle that `Save` returns is the `key` argument. -/
theorem Save_handle_name {σ M : Type} (K : Constants) (c : Client σ) (p : Codec M)
    (w : World σ) (key : String) (metadata : M) (handle : MetadataName)
    (h : (Save K c p w key metadata).1.1 = some handle) : handle.Name = key := by
  rw [Save_eq_steps] at h
  unfold SaveWrite at h
  split at h
  · simp at h
  · split at h
    · simp at h
    · simp only [Option.some.injEq] at h
      rw [← h]

/-- C17: for every key, every record that marshals and every pair of value and error that
the existence read returns, `Save` makes its write, of the marshalled record under
`MetadataPrefix + key`, if and only if the value is empty and the error is absent or has the
`NoValueFound` message, and makes no write otherwise; in particular, when the read returns the
empty value and no error, `Save` does not fail with `AlreadyExists`: it writes over the key,
and reports success when the write succeeds. -/
theorem Save_writes_iff_empty_value {σ M : Type} (K : Constants) (c : Client σ) (p : Codec M)
    (w : World σ) (writes : List (String × String)) (key : String) (metadata : M)
    (val : String) (hm : p.Marshal metadata = Except.ok val) :
    ((Save K (recordingClient c) p (recordingWorld w writes) key metadata).2.db.2 =
          writes ++ [(K.MetadataPrefix ++ key, val)] ↔
        ((c.GetValue w (K.MetadataPrefix ++ key)).1.1 = "" ∧
          ((c.GetValue w (K.MetadataPrefix ++ key)).1.2 = none ∨
            ∃ e, (c.GetValue w (K.MetadataPrefix ++ key)).1.2 = some e ∧
              e.msg = K.NoValueFound))) ∧
      ((Save K (recordingClient c) p (recordingWorld w writes) key metadata).2.db.2 = writes ↔
        ¬ ((c.GetValue w (K.MetadataPrefix ++ key)).1.1 = "" ∧
          ((c.GetValue w (K.MetadataPrefix ++ key)).1.2 = none ∨
            ∃ e, (c.GetValue w (K.MetadataPrefix ++ key)).1.2 = some e ∧
              e.msg = K.NoValueFound))) ∧
      ((c.GetValue w (K.MetadataPrefix ++ key)).1 = ("", none) →
        (Save K c p w key metadata).1.2 ≠
            some (RepoError.status Code.AlreadyExists (K.Etcd ++ K.KeyAlreadyPresent)) ∧
          (Save K c p w key metadata).2 =
            (c.PutValue (c.GetValue w (K.MetadataPrefix ++ key)).2
              (K.MetadataPrefix ++ key) val).2 ∧
          ((c.PutValue (c.GetValue w (K.MetadataPrefix ++ key)).2
              (K.MetadataPrefix ++ key) val).1 = none →
            (Save K c p w key metadata).1 = (some { Name := key }, none))) := by
  have hne : writes ++ [(K.MetadataPrefix ++ key, val)] ≠ writes := by
    intro h
    have hl := congrArg List.length h
    simp at hl
  refine ⟨?_, ?_, ?_⟩
  · rcases Save_recorded_cases K c p w writes key metadata val hm with ⟨hc, hw⟩ | ⟨hc, hw⟩
    · exact ⟨fun _ => hc, fun _ => hw⟩
    · exact ⟨fun h => absurd (hw.symm.trans h).symm hne, fun h => absurd h hc⟩
  · rcases Save_recorded_cases K c p w writes key metadata val hm with ⟨hc, hw⟩ | ⟨hc, hw⟩
    · exact ⟨fun h => absurd (hw.symm.trans h) hne, fun h => absurd hc h⟩
    · exact ⟨fun _ => hc, fun _ => hw⟩
  · intro hread
    have hv : (c.GetValue w (K.MetadataPrefix ++ key)).1.1 = "" := by rw [hread]
    have hr : (c.GetValue w (K.MetadataPrefix ++ key)).1.2 = none := by rw [hread]
    have hs := Save_put K c p w key metadata val hm hv
      (fun e he => by rw [hr] at he; cases he)
    rw [hs]
    rcases c.PutValue (c.GetValue w (K.MetadataPrefix ++ key)).2
      (K.MetadataPrefix ++ key) val with ⟨perr, w2⟩
    cases perr <;> simp

/-- C17, at the store that holds `DemoJob` with the empty value: `Save` writes over it. -/
theorem Save_writes_iff_empty_value_witness :
    sampleCodec.Marshal { Name := "DemoJob" } = Except.ok "NDemoJob" ∧
      ((modelClient sampleConstants).GetValue emptyValueWorld
        (sampleConstants.MetadataPrefix ++ "DemoJob")).1 = ("", none) ∧
      (Save sampleConstants (recordingClient (modelClient sampleConstants)) sampleCodec
        (recordingWorld emptyValueWorld []) "DemoJob" { Name := "DemoJob" }).2.db.2 =
          [] ++ [(sampleConstants.MetadataPrefix ++ "DemoJob", "NDemoJob")] ∧
      (Save sampleConstants (modelClient sampleConstants) sampleCodec emptyValueWorld "DemoJob"
        { Name := "DemoJob" }).1 = (some { Name := "DemoJob" }, none) :=
  ⟨rfl, rfl,
    (Save_writes_iff_empty_value sampleConstants (modelClient sampleConstants) sampleCodec
      emptyValueWorld [] "DemoJob" { Name := "DemoJob" } "NDemoJob" rfl).1.mpr
        ⟨rfl, Or.inl rfl⟩,
    ((Save_writes_iff_empty_value sampleConstants (modelClient sampleConstants) sampleCodec
      emptyValueWorld [] "DemoJob" { Name := "DemoJob" } "NDemoJob" rfl).2.2 rfl).2.2 rfl⟩

/-- C18: `Save` addresses the record by its `key` argument alone.  For every key and record,
a handle that `Save` returns has the name `key`, and a write that `Save` makes is the write of
the marshalled record under `MetadataPrefix + key`: the key of the write is made of `key`
alone and its bytes of the record alone, and the name field of the record is not compared
with `key`.  So the record with the name `Other` is saved under the key `DemoJob`: `Save`
succeeds, `GetAvailableJobList` then reports the name `DemoJob`, and `GetAll` and
`GetValue("DemoJob")` return the record whose name field is `Other`. -/
theorem Save_addresses_by_key_argument {σ M : Type} (K : Constants) (c : Client σ)
    (p : Codec M) (w : World σ) (writes : List (String × String)) (key : String)
    (metadata : M) :
    (∀ handle, (Save K c p w key metadata).1.1 = some handle → handle.Name = key) ∧
      ((Save K (recordingClient c) p (recordingWorld w writes) key metadata).2.db.2 = writes ∨
        ∃ val, p.Marshal metadata = Except.ok val ∧
          (Save K (recordingClient c) p (recordingWorld w writes) key metadata).2.db.2 =
            writes ++ [(K.MetadataPrefix ++ key, val)]) ∧
      (({ Name := "Other" } : Metadata).Name ≠ "DemoJob" ∧
        (Save sampleConstants (modelClient sampleConstants) sampleCodec emptyWorld "DemoJob"
          { Name := "Other" }).1 = (some { Name := "DemoJob" }, none) ∧
        (GetAvailableJobList sampleConstants (modelClient sampleConstants)
          (Save sampleConstants (modelClient sampleConstants) sampleCodec emptyWorld "DemoJob"
            { Name := "Other" }).2).map (fun res => res.1) =
              some (some { Jobs := ["DemoJob"] }, none) ∧
        (GetAll sampleConstants (modelClient sampleConstants) sampleCodec
          (Save sampleConstants (modelClient sampleConstants) sampleCodec emptyWorld "DemoJob"
            { Name := "Other" }).2).1 = (some { Values := [{ Name := "Other" }] }, none) ∧
        (GetValue sampleConstants (modelClient sampleConstants) sampleCodec
          (Save sampleConstants (modelClient sampleConstants) sampleCodec emptyWorld "DemoJob"
            { Name := "Other" }).2 "DemoJob").1 = (some { Name := "Other" }, none)) := by
  refine ⟨fun handle h => Save_handle_name K c p w key metadata handle h, ?_,
    by decide, rfl, rfl, rfl, rfl⟩
  cases hm : p.Marshal metadata with
  | error e =>
    left
    unfold Save
    simp only [hm]
    rfl
  | ok val =>
    rcases Save_recorded_cases K c p w writes key metadata val hm with ⟨_, hw⟩ | ⟨_, hw⟩
    · exact Or.inr ⟨val, rfl, hw⟩
    · exact Or.inl hw

/-- C18, at the empty store: the handle of the record `Other` saved under `DemoJob`. -/
theorem Save_addresses_by_key_argument_witness :
    (Save sampleConstants (modelClient sampleConstants) sampleCodec emptyWorld "DemoJob"
        { Name := "Other" }).1.1 = some { Name := "DemoJob" } ∧
      ({ Name := "DemoJob" } : MetadataName).Name = "DemoJob" :=
  ⟨rfl,
    (Save_addresses_by_key_argument sampleConstants (modelClient sampleConstants) sampleCodec
      emptyWorld [] "DemoJob" { Name := "Other" }).1 { Name := "DemoJob" } rfl⟩

end Octavius
